import Mathlib

/-!
Verification development for the C/C++ symbol-extraction and
signature-canonicalization engine of the repository
(`dapper_python/dataset_generation/parsing/cpp.py`).

The Python source is shallowly embedded: pure string manipulation becomes
functions on `List Char` / `String`, the tree-sitter syntax tree becomes the
inductive `Node` type, tree-sitter queries become recursive searches over
that type, and Python exceptions become an explicit `Except` monad.
-/

namespace Dapper

/-! ## Python whitespace

`str.strip()` and the regex class `\s` in CPython (unicode mode) both use
`Py_UNICODE_ISSPACE`.  The same character set is used uniformly below, as in
CPython. -/

/-- The set of characters CPython treats as whitespace, both for the regex
class `\s` (on `str` patterns) and for `str.strip()`. -/
def pyIsSpace (c : Char) : Bool :=
  c = ' ' || c = '\t' || c = '\n' || c = '\u000b' || c = '\u000c' || c = '\r'
  || c = '\u001c' || c = '\u001d' || c = '\u001e' || c = '\u001f'
  || c = '\u0085' || c = '\u00a0' || c = '\u1680'
  || (decide (('\u2000' : Char) ≤ c) && decide (c ≤ ('\u200a' : Char)))
  || c = '\u2028' || c = '\u2029' || c = '\u202f' || c = '\u205f' || c = '\u3000'

/-! ## The cleanup pipeline (`CPPFunctionParser._CLEANUP_REGEXES`)

The Python code applies five `re.sub` rewrites in order, then `str.strip()`:
1. `\n` → `" "`
2. `\s+(?=[*&])` → `""`  (delete whitespace runs directly before `*` or `&`)
3. `,(?=\S)` → `", "`    (one space after a comma followed by non-space)
4. `(?<=<)\s+|\s+(?=>)` → `""` (delete runs directly after `<` or before `>`)
5. `\s+` → `" "`          (collapse runs to a single space)

Each stage is realized below as a character-list transformation with the
same semantics as the corresponding `re.sub` (left-to-right scan over
non-overlapping matches; the lookarounds are zero-width). -/

/-- Stage 1: `re.sub(r"\n", " ", s)`. -/
def r1 (l : List Char) : List Char :=
  l.map (fun c => if c = '\n' then ' ' else c)

/-- Does skipping leading whitespace reach a `*` or `&`?  A whitespace
character is removed by stage 2 exactly when this holds of its suffix. -/
def starAfterWs : List Char → Bool
  | [] => false
  | c :: rest => if pyIsSpace c then starAfterWs rest else (c = '*' || c = '&')

/-- Stage 2: `re.sub(r"\s+(?=[*&])", "", s)`.  A whitespace character is
deleted iff the run it belongs to is immediately followed by `*` or `&`. -/
def r2 : List Char → List Char
  | [] => []
  | c :: rest =>
    if pyIsSpace c && starAfterWs rest then r2 rest else c :: r2 rest

/-- Stage 3: `re.sub(r",(?=\S)", ", ", s)`.  Insert one space after every
comma that is directly followed by a non-whitespace character. -/
def r3 : List Char → List Char
  | [] => []
  | [c] => [c]
  | c :: d :: rest =>
    if c = ',' && !pyIsSpace d then c :: ' ' :: r3 (d :: rest)
    else c :: r3 (d :: rest)

/-- Does skipping leading whitespace reach a `>`? -/
def wsEndsAtGt : List Char → Bool
  | [] => false
  | c :: rest => if pyIsSpace c then wsEndsAtGt rest else c = '>'

/-- Stage 4 worker.  `afterLt` records whether the current position is inside
a whitespace run whose immediate left neighbour is `<` (or, at a
non-whitespace character, whether the previous character was `<`).  A
whitespace run is deleted iff it directly follows `<` or directly precedes
`>`, matching `re.sub(r"(?<=<)\s+|\s+(?=>)", "", s)`. -/
def r4go : Bool → List Char → List Char
  | _, [] => []
  | afterLt, c :: rest =>
    if pyIsSpace c then
      if afterLt || wsEndsAtGt (c :: rest) then r4go afterLt rest
      else c :: r4go false rest
    else c :: r4go (c = '<') rest

/-- Stage 4: `re.sub(r"(?<=<)\s+|\s+(?=>)", "", s)`. -/
def r4 (l : List Char) : List Char := r4go false l

mutual

/-- Stage 5: `re.sub(r"\s+", " ", s)` — replace every maximal whitespace run
by a single space. -/
def r5 : List Char → List Char
  | [] => []
  | c :: rest => if pyIsSpace c then ' ' :: r5run rest else c :: r5 rest

/-- Stage 5 worker: currently inside a whitespace run whose single output
space has already been emitted. -/
def r5run : List Char → List Char
  | [] => []
  | c :: rest => if pyIsSpace c then r5run rest else c :: r5 rest

end

/-- `str.strip()` on a character list. -/
def pyStrip (l : List Char) : List Char :=
  ((l.dropWhile pyIsSpace).reverse.dropWhile pyIsSpace).reverse

/-- The whole pipeline on character lists: the five rewrites, then strip. -/
def normalizeL (l : List Char) : List Char :=
  pyStrip (r5 (r4 (r3 (r2 (r1 l)))))

/-- `CPPFunctionParser.normalize_string`: apply the five cleanup rewrites in
order, then `str.strip()`. -/
def normalizeString (s : String) : String :=
  String.mk (normalizeL s.data)

/-- `str.strip()` on strings (also used by `_parse_type` and the extractors). -/
def pyStripStr (s : String) : String :=
  String.mk (pyStrip s.data)

example : normalizeString "pair< int, float >" = "pair<int, float>" := by decide
example : normalizeString "int *" = "int*" := by decide
example : normalizeString "a,b,   c" = "a, b, c" := by decide
example : normalizeString "  const   std::string  &" = "const std::string&" := by decide

/-! ## The syntax-tree model

A tree-sitter node exposes a kind tag (`node.type`), its raw text
(`node.text.decode()` — modelled as an already-decoded `String`, so
`UnicodeDecodeError` cannot arise in the model), and its ordered children,
each optionally occupying a named field of the parent
(`node.child_by_field_name`).  `Node`/`NodeList` is a mutual inductive so
that all traversals are structural recursions that reduce inside the
kernel. -/

mutual

/-- A tree-sitter syntax node: kind tag, decoded text, labelled children. -/
inductive Node : Type where
  | mk (kind : String) (text : String) (children : NodeList)

/-- Ordered children of a node; `label` is the field name the child occupies
in its parent, if any. -/
inductive NodeList : Type where
  | nil : NodeList
  | cons (label : Option String) (child : Node) (rest : NodeList) : NodeList

end

deriving instance DecidableEq for Node

/-- Build a `NodeList` from a list of `(field label, child)` pairs. -/
def nl : List (Option String × Node) → NodeList
  | [] => .nil
  | (lbl, c) :: rest => .cons lbl c (nl rest)

/-- `node.type`. -/
def Node.kind : Node → String
  | .mk k _ _ => k

/-- `node.text.decode()`. -/
def Node.text : Node → String
  | .mk _ t _ => t

/-- The labelled children of a node. -/
def Node.childrenNL : Node → NodeList
  | .mk _ _ cs => cs

/-- Children as a plain list (`node.children`). -/
def NodeList.toNodes : NodeList → List Node
  | .nil => []
  | .cons _ c rest => c :: rest.toNodes

/-- `node.children`. -/
def Node.children (n : Node) : List Node := n.childrenNL.toNodes

/-- `node.child_by_field_name(f)`: the first child occupying field `f`. -/
def NodeList.fieldChild : NodeList → String → Option Node
  | .nil, _ => none
  | .cons lbl c rest, f => if lbl = some f then some c else rest.fieldChild f

/-- `node.child_by_field_name(f)`. -/
def Node.childByFieldName (n : Node) (f : String) : Option Node :=
  n.childrenNL.fieldChild f

mutual

/-- All nodes of a subtree in pre-order (document order), each paired with
its chain of ancestors, nearest first.  `acc` is the ancestor chain of the
argument node itself.  This is the order in which `QueryCursor.matches`
reports single-node pattern matches. -/
def Node.preorderAnc : Node → List Node → List (Node × List Node)
  | .mk k t cs, acc => (.mk k t cs, acc) :: cs.preorderAnc (.mk k t cs :: acc)

/-- Pre-order over a child list; `acc` is the ancestor chain of each child. -/
def NodeList.preorderAnc (cs : NodeList) (acc : List Node) :
    List (Node × List Node) :=
  match cs with
  | .nil => []
  | .cons _ c rest => c.preorderAnc acc ++ rest.preorderAnc acc

end

mutual

/-- First node of the subtree (pre-order, including the root of the search)
satisfying `p`, together with its ancestors below the original search root,
nearest first.  `acc` is the already-accumulated chain. -/
def Node.firstMatch (p : Node → Bool) : Node → List Node →
    Option (Node × List Node)
  | .mk k t cs, acc =>
    if p (.mk k t cs) then some (.mk k t cs, acc)
    else cs.firstMatchList p (.mk k t cs :: acc)

/-- `Node.firstMatch` over a child list. -/
def NodeList.firstMatchList (p : Node → Bool) (cs : NodeList)
    (acc : List Node) : Option (Node × List Node) :=
  match cs with
  | .nil => none
  | .cons _ c rest =>
    match c.firstMatch p acc with
    | some r => some r
    | none => rest.firstMatchList p acc

end

/-- `QueryCursor(query).matches(root)[0]` for a single-node-kind query:
the first matching node of `root`'s subtree in document order, with its
ancestor chain up to but excluding `root` (nearest first).  The chain is
exactly `itertools.takewhile(lambda x: x != root, ancestors(match))`, since
every node on it is a proper descendant of `root`. -/
def Node.queryFirst (p : Node → Bool) (root : Node) :
    Option (Node × List Node) :=
  if p root then some (root, []) else root.childrenNL.firstMatchList p []

mutual

/-- Does the subtree rooted at `n` (including `n`) contain a node satisfying
`p`?  Models the truthiness test on `QueryCursor.matches`. -/
def Node.anyNode (p : Node → Bool) : Node → Bool
  | .mk k t cs => p (.mk k t cs) || cs.anyNodeList p

/-- `Node.anyNode` over a child list. -/
def NodeList.anyNodeList (p : Node → Bool) (cs : NodeList) : Bool :=
  match cs with
  | .nil => false
  | .cons _ c rest => c.anyNode p || rest.anyNodeList p

end

mutual

/-- First descendant of `n` (strictly below, pre-order) that occupies field
`fname` in its parent and has kind `kind`.  Models the query
`fname: (kind) @capture` rooted at `n`. -/
def Node.firstFieldMatch (fname kind : String) : Node → Option Node
  | .mk _ _ cs => cs.firstFieldMatchList fname kind

/-- `Node.firstFieldMatch` over a child list. -/
def NodeList.firstFieldMatchList (fname kind : String) :
    NodeList → Option Node
  | .nil => none
  | .cons lbl c rest =>
    if lbl = some fname && c.kind = kind then some c
    else
      match c.firstFieldMatch fname kind with
      | some r => some r
      | none => rest.firstFieldMatchList fname kind

end

/-- `CPPTreeParser._ERROR_QUERY`: does the subtree contain an `ERROR` or
`MISSING` node?  (tree-sitter represents error nodes with kind `ERROR` and
zero-width recovery placeholders as missing nodes, matched by `(MISSING)`.) -/
def hasErrorNode (n : Node) : Bool :=
  n.anyNode (fun m => m.kind = "ERROR" || m.kind = "MISSING")

example :
    (Node.mk "a" "" (nl [(some "f", Node.mk "b" "x" .nil),
      (none, Node.mk "c" "y" .nil)])).childByFieldName "f"
      = some (Node.mk "b" "x" .nil) := by decide

/-! ## Value records and Python exceptions -/

/-- `FunctionSymbol` (a frozen dataclass in the source). -/
structure FunctionSymbol where
  return_type : String
  symbol_name : String
  qualified_symbol_name : String
  param_list : List String
  modifiers : List String
  source_text : Option String
deriving DecidableEq, Repr

/-- `FunctionSymbol.params`: the comma-joined parameter type list. -/
def FunctionSymbol.params (f : FunctionSymbol) : String :=
  String.intercalate ", " f.param_list

/-- `FunctionSymbol.full_signature`: `"{return_type} {qualified}({params})"`,
with `" {modifiers}"` appended only when `modifiers` is non-empty. -/
def FunctionSymbol.full_signature (f : FunctionSymbol) : String :=
  if f.modifiers.isEmpty then
    f.return_type ++ " " ++ f.qualified_symbol_name ++ "(" ++ f.params ++ ")"
  else
    f.return_type ++ " " ++ f.qualified_symbol_name ++ "(" ++ f.params ++ ") "
      ++ String.intercalate " " f.modifiers

/-- The tuple of fields compared by the generated dataclass `__eq__`: every
field except `source_text`, which is declared `field(compare=False)`. -/
def FunctionSymbol.eqFields (f : FunctionSymbol) :
    String × String × String × List String × List String :=
  (f.return_type, f.symbol_name, f.qualified_symbol_name, f.param_list,
    f.modifiers)

/-- Dataclass equality of two `FunctionSymbol`s (`__eq__` compares the
tuples of fields with `compare=True`). -/
def FunctionSymbol.pyEq (a b : FunctionSymbol) : Bool :=
  a.eqFields = b.eqFields

/-- The tuple of fields fed to the generated dataclass `__hash__`: fields
with `compare=True` and `hash` not set to `False`.  `symbol_name` is
declared `field(hash=False)` and `source_text` is `field(compare=False)`,
so the hash input is `(return_type, qualified_symbol_name, param_list,
modifiers)`.  Two records "hash alike" exactly when these tuples are
equal. -/
def FunctionSymbol.hashFields (f : FunctionSymbol) :
    String × String × List String × List String :=
  (f.return_type, f.qualified_symbol_name, f.param_list, f.modifiers)

/-- `PreprocessDefine`. -/
structure PreprocessDefine where
  name : String
  value : String
deriving DecidableEq, Repr

/-- `StringLiteral`. -/
structure StringLiteral where
  value : String
deriving DecidableEq, Repr

/-- The Python exceptions that can flow out of the parsing code.
`parseError` is the structured `ParseError(text=...)` of
`dataset_generation.datatypes.exceptions`; `typeError` is a raw
`TypeError`; `attrError` is the `AttributeError` raised by calling `.text`
on the `None` returned by a failed `child_by_field_name`.
`UnicodeDecodeError` cannot arise in the model because node text is already
decoded. -/
inductive PyErr : Type where
  | parseError (text : String)
  | typeError (kind : String)
  | attrError
deriving DecidableEq, Repr

deriving instance DecidableEq for Except

/-! ## `CPPFunctionParser._parse_type` -/

/-- The strings one declarator wrapper contributes in
`CPPFunctionParser._parse_type`: its literal `*`/`&`/`&&` children in
source order, then a single `"*"` if the wrapper is an `array_declarator`
(array-to-pointer decay), then the text of its first `type_qualifier`
child, if any. -/
def modifierTokens (m : Node) : List String :=
  ((m.children.filter (fun x => x.kind = "*" || x.kind = "&" || x.kind = "&&")).map
    Node.text)
  ++ (if m.kind = "array_declarator" then ["*"] else [])
  ++ (match m.children.find? (fun x => x.kind = "type_qualifier") with
      | some q => [q.text]
      | none => [])

/-- `CPPFunctionParser._parse_type`.  For a `function_definition` the inner
declarator is the first `function_declarator` of the subtree; for a
(possibly optional) `parameter_declaration` it is the first `identifier`.
The wrapper chain strictly between the inner declarator and `node`
(`takewhile(lambda x: x != node, ancestors(decl))`) is collected nearest
first, reversed, and each wrapper contributes `modifierTokens`.  A missing
inner declarator (`IndexError`, suppressed) leaves the modifier list empty.
The result is `"{qualifiers joined} {base}{modifiers joined}"` passed
through the normalizer. -/
def parseType (node : Node) : Except PyErr String :=
  let isFn := node.kind = "function_definition"
  let isParam := node.kind = "parameter_declaration"
    || node.kind = "optional_parameter_declaration"
  if isFn || isParam then
    let qualifiers := (node.children.filter
      (fun x => x.kind = "type_qualifier")).map (fun x => pyStripStr x.text)
    match node.childByFieldName "type" with
    | none => .error .attrError
    | some tnode =>
      let baseType := pyStripStr tnode.text
      let declKind := if isFn then "function_declarator" else "identifier"
      let modifiers :=
        match node.queryFirst (fun m => m.kind = declKind) with
        | none => []
        | some (_, chain) => (chain.reverse).flatMap modifierTokens
      .ok (normalizeString (String.intercalate " " qualifiers ++ " "
        ++ baseType ++ String.intercalate " " modifiers))
  else .error (.typeError node.kind)

/-- `CPPFunctionParser._signature_text`: the function text with the byte
range of its `body` field excised.  In a tree-sitter `function_definition`
the body is the final child, so excising its byte range drops the
corresponding suffix of the (decoded) text; the model removes the last
`body.text.length` characters. -/
def signatureText (fn : Node) : Except PyErr String :=
  if fn.kind = "declaration" then .ok (pyStripStr fn.text)
  else if fn.kind = "function_definition" then
    match fn.childByFieldName "body" with
    | none => .ok fn.text
    | some b => .ok (fn.text.dropRight b.text.length)
  else .error (.typeError fn.kind)

/-! ## `CPPFunctionParser.parse_function`

`outerAnc` is the ancestor chain of the function node inside the whole
tree (nearest first): the Python `ancestors` helper walks real parent
pointers past the function node up to the tree root.

Every `matches(...)[0]` on an empty match list raises `IndexError`, which
the surrounding `try` converts to `ParseError(text=fn.text.decode().strip())`;
a failed `child_by_field_name(...).text` raises `AttributeError`, which is
not caught. -/

/-- The qualifier names collected from an ancestor chain (nearest first):
keep the `namespace_definition` and `class_specifier` ancestors, reverse to
outermost-first, and take each scope's normalized `name` field, skipping
anonymous scopes.  (Note: only those two kinds are kept; a
`struct_specifier` ancestor is not collected.) -/
def addonQualifiersOf (anc : List Node) : List String :=
  ((anc.filter (fun x =>
    x.kind = "namespace_definition" || x.kind = "class_specifier")).reverse).filterMap
    (fun a => (a.childByFieldName "name").map (fun nn => normalizeString nn.text))

/-- Prefix `base` with the collected qualifiers joined by `::`, only when at
least one qualifier was found. -/
def qualify (anc : List Node) (base : String) : String :=
  let qs := addonQualifiersOf anc
  if qs.isEmpty then base else String.intercalate "::" qs ++ "::" ++ base

/-- The modifiers of a function declarator: its direct `type_qualifier`
children, source order, normalized. -/
def modifiersOf (d : Node) : List String :=
  (d.children.filter (fun x => x.kind = "type_qualifier")).map
    (fun x => normalizeString x.text)

/-- `source_text`: `_signature_text(fn).strip()`, whitespace runs collapsed
(`re.sub(r"\s+", " ", ...)` is stage 5), then stripped again. -/
def sourceTextOf (sig : String) : String :=
  pyStripStr (String.mk (r5 (pyStripStr sig).data))

/-- The parameter list comprehension of `parse_function`: normalize the
`_parse_type` of each kept parameter node, left to right; the first raised
exception propagates. -/
def mapParseTypes : List Node → Except PyErr (List String)
  | [] => .ok []
  | p :: rest =>
    match parseType p with
    | .error e => .error e
    | .ok t =>
      match mapParseTypes rest with
      | .error e => .error e
      | .ok ts => .ok (normalizeString t :: ts)

/-- `CPPFunctionParser.parse_function`. -/
def parseFunction (fn : Node) (outerAnc : List Node) :
    Except PyErr FunctionSymbol :=
  match parseType fn with
  | .error e => .error e
  | .ok rt0 =>
    match fn.queryFirst (fun m => m.kind = "function_declarator") with
    | none => .error (.parseError (pyStripStr fn.text))
    | some (d, chain) =>
      match d.childByFieldName "declarator" with
      | none => .error .attrError
      | some dd =>
        match d.queryFirst (fun m => m.kind = "identifier"
            || m.kind = "field_identifier" || m.kind = "operator_name") with
        | none => .error (.parseError (pyStripStr fn.text))
        | some (idNode, _) =>
          match fn.firstFieldMatch "parameters" "parameter_list" with
          | none => .error (.parseError (pyStripStr fn.text))
          | some plist =>
            match mapParseTypes (plist.children.filter (fun x =>
                x.kind = "parameter_declaration"
                || x.kind = "optional_parameter_declaration")) with
            | .error e => .error e
            | .ok parameters =>
              match signatureText fn with
              | .error e => .error e
              | .ok sig =>
                .ok ⟨normalizeString rt0, normalizeString idNode.text,
                  normalizeString (qualify (chain ++ fn :: outerAnc) dd.text),
                  parameters, modifiersOf d, some (sourceTextOf sig)⟩

/-! ## `CPPTreeParser` extractors -/

/-- The matches of `_FUNCTION_QUERY` over the whole tree, in document
order, paired with each match node's ancestor chain: `function_definition`
nodes possessing both a `type` and a `declarator` field. -/
def functionMatches (root : Node) : List (Node × List Node) :=
  (root.preorderAnc []).filter (fun pa =>
    pa.1.kind = "function_definition"
    && (pa.1.childByFieldName "type").isSome
    && (pa.1.childByFieldName "declarator").isSome)

/-- The loop body of `CPPTreeParser.parse_functions`: skip a match whose
subtree has an `ERROR`/`MISSING` node; otherwise parse it, suppressing
`ParseError` (and `UnicodeDecodeError`, which cannot arise in the model)
for that single match while any other exception propagates. -/
def parseFunctionsGo :
    List (Node × List Node) → Except PyErr (List FunctionSymbol)
  | [] => .ok []
  | (fn, anc) :: rest =>
    if hasErrorNode fn then parseFunctionsGo rest
    else
      match parseFunction fn anc with
      | .ok sym =>
        match parseFunctionsGo rest with
        | .ok tl => .ok (sym :: tl)
        | .error e => .error e
      | .error (.parseError _) => parseFunctionsGo rest
      | .error e => .error e

/-- `CPPTreeParser.parse_functions` (the generator, fully materialized). -/
def parseFunctions (root : Node) : Except PyErr (List FunctionSymbol) :=
  parseFunctionsGo (functionMatches root)

/-- `CPPTreeParser.parse_preproc_defs`: every `preproc_def` node having
both a `name` and a `value` field yields a `PreprocessDefine` with the
stripped texts. -/
def parsePreprocDefs (root : Node) : List PreprocessDefine :=
  (root.preorderAnc []).filterMap (fun pa =>
    if pa.1.kind = "preproc_def" then
      match pa.1.childByFieldName "name", pa.1.childByFieldName "value" with
      | some nn, some vn => some ⟨pyStripStr nn.text, pyStripStr vn.text⟩
      | _, _ => none
    else none)

/-- `CPPTreeParser.parse_string_literals`: for every `string_literal` node,
skip it if any ancestor is a `preproc_include`; otherwise emit the stripped
text of the nearest ancestor that is a `declaration` or
`expression_statement`, and emit nothing if no such ancestor exists (the
`StopIteration` of the exhausted generator is suppressed). -/
def parseStringLiterals (root : Node) : List StringLiteral :=
  (root.preorderAnc []).filterMap (fun pa =>
    if pa.1.kind = "string_literal" then
      if pa.2.any (fun a => a.kind = "preproc_include") then none
      else (pa.2.find? (fun a => a.kind = "declaration"
          || a.kind = "expression_statement")).map (fun p => ⟨pyStripStr p.text⟩)
    else none)

/-! ## Concrete fixture trees

Each fixture mirrors the tree-sitter-cpp parse of a small source string
used by the repository's own test-suite (`tests/test_cpp_parsing.py`) or by
the specification's examples.  Node kinds follow the tree-sitter-cpp
grammar: `class` scopes parse to `class_specifier`, `struct` scopes to
`struct_specifier`, exception specifiers to `throw_specifier`, unnamed
pointer parameters to `abstract_pointer_declarator`. -/

/-- Parameter `int x`. -/
def pdIntX : Node :=
  .mk "parameter_declaration" "int x"
    (nl [(some "type", .mk "primitive_type" "int" .nil),
         (some "declarator", .mk "identifier" "x" .nil)])

/-- `(int x)`. -/
def plIntX : Node :=
  .mk "parameter_list" "(int x)"
    (nl [(none, .mk "(" "(" .nil), (none, pdIntX), (none, .mk ")" ")" .nil)])

/-- Declarator `simple_int(int x)`. -/
def fdeclSimple : Node :=
  .mk "function_declarator" "simple_int(int x)"
    (nl [(some "declarator", .mk "identifier" "simple_int" .nil),
         (some "parameters", plIntX)])

/-- `int simple_int(int x){}`. -/
def fnSimple : Node :=
  .mk "function_definition" "int simple_int(int x)\x7b\x7d"
    (nl [(some "type", .mk "primitive_type" "int" .nil),
         (some "declarator", fdeclSimple),
         (some "body", .mk "compound_statement" "\x7b\x7d" .nil)])

/-- Whole-file tree for `int simple_int(int x){}`. -/
def tSimple : Node :=
  .mk "translation_unit" "int simple_int(int x)\x7b\x7d" (nl [(none, fnSimple)])

/-- Parameter `int* arr[]` (pointer wrapping an array declarator). -/
def pdArr : Node :=
  .mk "parameter_declaration" "int* arr[]"
    (nl [(some "type", .mk "primitive_type" "int" .nil),
         (some "declarator", .mk "pointer_declarator" "* arr[]"
           (nl [(none, .mk "*" "*" .nil),
                (some "declarator", .mk "array_declarator" "arr[]"
                  (nl [(some "declarator", .mk "identifier" "arr" .nil),
                       (none, .mk "[" "[" .nil),
                       (none, .mk "]" "]" .nil)]))]))])

/-- Parameter `size_t n`. -/
def pdSize : Node :=
  .mk "parameter_declaration" "size_t n"
    (nl [(some "type", .mk "primitive_type" "size_t" .nil),
         (some "declarator", .mk "identifier" "n" .nil)])

/-- `(int* arr[], size_t n)`. -/
def plMakeVector : Node :=
  .mk "parameter_list" "(int* arr[], size_t n)"
    (nl [(none, .mk "(" "(" .nil), (none, pdArr), (none, .mk "," "," .nil),
         (none, pdSize), (none, .mk ")" ")" .nil)])

/-- Declarator `make_vector(int* arr[], size_t n)`. -/
def fdeclMakeVector : Node :=
  .mk "function_declarator" "make_vector(int* arr[], size_t n)"
    (nl [(some "declarator", .mk "identifier" "make_vector" .nil),
         (some "parameters", plMakeVector)])

/-- `int* make_vector(int* arr[], size_t n){}`. -/
def fnMakeVector : Node :=
  .mk "function_definition" "int* make_vector(int* arr[], size_t n)\x7b\x7d"
    (nl [(some "type", .mk "primitive_type" "int" .nil),
         (some "declarator", .mk "pointer_declarator"
           "* make_vector(int* arr[], size_t n)"
           (nl [(none, .mk "*" "*" .nil), (some "declarator", fdeclMakeVector)])),
         (some "body", .mk "compound_statement" "\x7b\x7d" .nil)])

/-- Whole-file tree for `int* make_vector(int* arr[], size_t n){}`. -/
def tMakeVector : Node :=
  .mk "translation_unit" "int* make_vector(int* arr[], size_t n)\x7b\x7d"
    (nl [(none, fnMakeVector)])

/-- `int name(){}` as a member definition (name is a `field_identifier`). -/
def fnMember : Node :=
  .mk "function_definition" "int name()\x7b\x7d"
    (nl [(some "type", .mk "primitive_type" "int" .nil),
         (some "declarator", .mk "function_declarator" "name()"
           (nl [(some "declarator", .mk "field_identifier" "name" .nil),
                (some "parameters", .mk "parameter_list" "()"
                  (nl [(none, .mk "(" "(" .nil), (none, .mk ")" ")" .nil)]))])),
         (some "body", .mk "compound_statement" "\x7b\x7d" .nil)])

/-- `class B { int name(){} };`. -/
def classB : Node :=
  .mk "class_specifier" "class B \x7b int name()\x7b\x7d \x7d"
    (nl [(none, .mk "class" "class" .nil),
         (some "name", .mk "type_identifier" "B" .nil),
         (some "body", .mk "field_declaration_list"
           "\x7b int name()\x7b\x7d \x7d"
           (nl [(none, .mk "\x7b" "\x7b" .nil), (none, fnMember),
                (none, .mk "\x7d" "\x7d" .nil)]))])

/-- `namespace A { class B { int name(){} }; }`. -/
def nsA : Node :=
  .mk "namespace_definition"
    "namespace A \x7b class B \x7b int name()\x7b\x7d \x7d; \x7d"
    (nl [(none, .mk "namespace" "namespace" .nil),
         (some "name", .mk "namespace_identifier" "A" .nil),
         (some "body", .mk "declaration_list"
           "\x7b class B \x7b int name()\x7b\x7d \x7d; \x7d"
           (nl [(none, .mk "\x7b" "\x7b" .nil), (none, classB),
                (none, .mk ";" ";" .nil), (none, .mk "\x7d" "\x7d" .nil)]))])

/-- Whole-file tree for `namespace A { class B { int name(){} }; }`. -/
def tNsClass : Node :=
  .mk "translation_unit"
    "namespace A \x7b class B \x7b int name()\x7b\x7d \x7d; \x7d"
    (nl [(none, nsA)])

/-- `int f(){}` as a member of a struct (name is a `field_identifier`). -/
def fnStructMember : Node :=
  .mk "function_definition" "int f()\x7b\x7d"
    (nl [(some "type", .mk "primitive_type" "int" .nil),
         (some "declarator", .mk "function_declarator" "f()"
           (nl [(some "declarator", .mk "field_identifier" "f" .nil),
                (some "parameters", .mk "parameter_list" "()"
                  (nl [(none, .mk "(" "(" .nil), (none, .mk ")" ")" .nil)]))])),
         (some "body", .mk "compound_statement" "\x7b\x7d" .nil)])

/-- `struct S { int f(){} };` — a `struct` scope is a `struct_specifier`
node in tree-sitter-cpp, not a `class_specifier`. -/
def structS : Node :=
  .mk "struct_specifier" "struct S \x7b int f()\x7b\x7d \x7d"
    (nl [(none, .mk "struct" "struct" .nil),
         (some "name", .mk "type_identifier" "S" .nil),
         (some "body", .mk "field_declaration_list" "\x7b int f()\x7b\x7d \x7d"
           (nl [(none, .mk "\x7b" "\x7b" .nil), (none, fnStructMember),
                (none, .mk "\x7d" "\x7d" .nil)]))])

/-- Whole-file tree for `struct S { int f(){} };`. -/
def tStruct : Node :=
  .mk "translation_unit" "struct S \x7b int f()\x7b\x7d \x7d;"
    (nl [(none, structS), (none, .mk ";" ";" .nil)])

/-- Declarator `error() const throw()` with a trailing qualifier and an
exception specifier. -/
def fdeclThrow : Node :=
  .mk "function_declarator" "error() const throw()"
    (nl [(some "declarator", .mk "identifier" "error" .nil),
         (some "parameters", .mk "parameter_list" "()"
           (nl [(none, .mk "(" "(" .nil), (none, .mk ")" ")" .nil)])),
         (none, .mk "type_qualifier" "const" .nil),
         (none, .mk "throw_specifier" "throw()"
           (nl [(none, .mk "throw" "throw" .nil), (none, .mk "(" "(" .nil),
                (none, .mk ")" ")" .nil)]))])

/-- `const std::string& error() const throw(){}`. -/
def fnThrow : Node :=
  .mk "function_definition" "const std::string& error() const throw()\x7b\x7d"
    (nl [(none, .mk "type_qualifier" "const" .nil),
         (some "type", .mk "qualified_identifier" "std::string" .nil),
         (some "declarator", .mk "reference_declarator" "& error() const throw()"
           (nl [(none, .mk "&" "&" .nil), (none, fdeclThrow)])),
         (some "body", .mk "compound_statement" "\x7b\x7d" .nil)])

/-- Whole-file tree for `const std::string& error() const throw(){}`. -/
def tThrow : Node :=
  .mk "translation_unit" "const std::string& error() const throw()\x7b\x7d"
    (nl [(none, fnThrow)])

/-- A garbled function definition whose body contains an `ERROR` node. -/
def fnBroken : Node :=
  .mk "function_definition" "int broken()\x7b int x = \x7d"
    (nl [(some "type", .mk "primitive_type" "int" .nil),
         (some "declarator", .mk "function_declarator" "broken()"
           (nl [(some "declarator", .mk "identifier" "broken" .nil),
                (some "parameters", .mk "parameter_list" "()"
                  (nl [(none, .mk "(" "(" .nil), (none, .mk ")" ")" .nil)]))])),
         (some "body", .mk "compound_statement" "\x7b int x = \x7d"
           (nl [(none, .mk "\x7b" "\x7b" .nil),
                (none, .mk "ERROR" "int x =" .nil),
                (none, .mk "\x7d" "\x7d" .nil)]))])

/-- A file with one garbled function (containing an `ERROR` node) followed
by one well-formed function. -/
def tBrokenAndGood : Node :=
  .mk "translation_unit" "int broken()\x7b int x = \x7d int simple_int(int x)\x7b\x7d"
    (nl [(none, fnBroken), (none, fnSimple)])

/-- Unnamed parameter `int*`: an abstract declarator with no identifier. -/
def pdAbstract : Node :=
  .mk "parameter_declaration" "int*"
    (nl [(some "type", .mk "primitive_type" "int" .nil),
         (some "declarator", .mk "abstract_pointer_declarator" "*"
           (nl [(none, .mk "*" "*" .nil)]))])

/-- `void f(int*){}`. -/
def fnAbstract : Node :=
  .mk "function_definition" "void f(int*)\x7b\x7d"
    (nl [(some "type", .mk "primitive_type" "void" .nil),
         (some "declarator", .mk "function_declarator" "f(int*)"
           (nl [(some "declarator", .mk "identifier" "f" .nil),
                (some "parameters", .mk "parameter_list" "(int*)"
                  (nl [(none, .mk "(" "(" .nil), (none, pdAbstract),
                       (none, .mk ")" ")" .nil)]))])),
         (some "body", .mk "compound_statement" "\x7b\x7d" .nil)])

/-- Whole-file tree for `void f(int*){}`. -/
def tAbstract : Node :=
  .mk "translation_unit" "void f(int*)\x7b\x7d" (nl [(none, fnAbstract)])

/-- `return "abc";` — a string literal whose ancestors include neither a
`declaration` nor an `expression_statement`. -/
def retStmt : Node :=
  .mk "return_statement" "return \"abc\";"
    (nl [(none, .mk "return" "return" .nil),
         (none, .mk "string_literal" "\"abc\""
           (nl [(none, .mk "\"" "\"" .nil),
                (none, .mk "string_content" "abc" .nil),
                (none, .mk "\"" "\"" .nil)])),
         (none, .mk ";" ";" .nil)])

/-- `const char* f(){ return "abc"; }`. -/
def tReturnLiteral : Node :=
  .mk "translation_unit" "const char* f()\x7b return \"abc\"; \x7d"
    (nl [(none, .mk "function_definition" "const char* f()\x7b return \"abc\"; \x7d"
      (nl [(none, .mk "type_qualifier" "const" .nil),
           (some "type", .mk "primitive_type" "char" .nil),
           (some "declarator", .mk "pointer_declarator" "* f()"
             (nl [(none, .mk "*" "*" .nil),
                  (some "declarator", .mk "function_declarator" "f()"
                    (nl [(some "declarator", .mk "identifier" "f" .nil),
                         (some "parameters", .mk "parameter_list" "()"
                           (nl [(none, .mk "(" "(" .nil),
                                (none, .mk ")" ")" .nil)]))]))])),
           (some "body", .mk "compound_statement" "\x7b return \"abc\"; \x7d"
             (nl [(none, .mk "\x7b" "\x7b" .nil), (none, retStmt),
                  (none, .mk "\x7d" "\x7d" .nil)]))]))])

/-- `cout << "version";` — an expression statement containing a literal. -/
def exprStmtVersion : Node :=
  .mk "expression_statement" "cout << \"version\";"
    (nl [(none, .mk "binary_expression" "cout << \"version\""
           (nl [(some "left", .mk "identifier" "cout" .nil),
                (some "operator", .mk "<<" "<<" .nil),
                (some "right", .mk "string_literal" "\"version\""
                  (nl [(none, .mk "\"" "\"" .nil),
                       (none, .mk "string_content" "version" .nil),
                       (none, .mk "\"" "\"" .nil)]))])),
         (none, .mk ";" ";" .nil)])

/-- `void g(){ cout << "version"; }`. -/
def tExprLiteral : Node :=
  .mk "translation_unit" "void g()\x7b cout << \"version\"; \x7d"
    (nl [(none, .mk "function_definition" "void g()\x7b cout << \"version\"; \x7d"
      (nl [(some "type", .mk "primitive_type" "void" .nil),
           (some "declarator", .mk "function_declarator" "g()"
             (nl [(some "declarator", .mk "identifier" "g" .nil),
                  (some "parameters", .mk "parameter_list" "()"
                    (nl [(none, .mk "(" "(" .nil), (none, .mk ")" ")" .nil)]))])),
           (some "body", .mk "compound_statement" "\x7b cout << \"version\"; \x7d"
             (nl [(none, .mk "\x7b" "\x7b" .nil), (none, exprStmtVersion),
                  (none, .mk "\x7d" "\x7d" .nil)]))]))])

/-- `#include "foo.h"` — the literal sits under a `preproc_include`. -/
def tInclude : Node :=
  .mk "translation_unit" "#include \"foo.h\"\n"
    (nl [(none, .mk "preproc_include" "#include \"foo.h\"\n"
      (nl [(none, .mk "#include" "#include" .nil),
           (some "path", .mk "string_literal" "\"foo.h\""
             (nl [(none, .mk "\"" "\"" .nil),
                  (none, .mk "string_content" "foo.h" .nil),
                  (none, .mk "\"" "\"" .nil)]))]))])

/-! ## Helper notions and general lemmas -/

/-- Is `pat` a leading segment of `l`? -/
def leadsWith : List Char → List Char → Bool
  | [], _ => true
  | _ :: _, [] => false
  | p :: ps, c :: cs => p = c && leadsWith ps cs

/-- Does `pat` occur contiguously anywhere in `l`? -/
def occursInL (pat : List Char) : List Char → Bool
  | [] => leadsWith pat []
  | c :: cs => leadsWith pat (c :: cs) || occursInL pat cs

/-- Does the string `pat` occur contiguously anywhere in `s`? -/
def occursIn (pat s : String) : Bool := occursInL pat.data s.data

/-- Anatomy of a successful `parseFunction` run: the intermediate matches
that produced each output field. -/
theorem parseFunction_ok (fn : Node) (anc : List Node) (sym : FunctionSymbol)
    (h : parseFunction fn anc = .ok sym) :
    ∃ rt d chain dd,
      parseType fn = .ok rt ∧
      fn.queryFirst (fun m => m.kind = "function_declarator") = some (d, chain) ∧
      d.childByFieldName "declarator" = some dd ∧
      sym.return_type = normalizeString rt ∧
      sym.qualified_symbol_name
        = normalizeString (qualify (chain ++ fn :: anc) dd.text) ∧
      sym.modifiers = modifiersOf d := by
  unfold parseFunction at h
  cases h1 : parseType fn with
  | error e => rw [h1] at h; exact absurd h (by simp)
  | ok rt =>
    rw [h1] at h
    simp only [] at h
    cases h2 : fn.queryFirst (fun m => m.kind = "function_declarator") with
    | none => rw [h2] at h; exact absurd h (by simp)
    | some dc =>
      obtain ⟨d, chain⟩ := dc
      rw [h2] at h
      simp only [] at h
      cases h3 : d.childByFieldName "declarator" with
      | none => rw [h3] at h; exact absurd h (by simp)
      | some dd =>
        rw [h3] at h
        simp only [] at h
        cases h4 : d.queryFirst (fun m => m.kind = "identifier"
            || m.kind = "field_identifier" || m.kind = "operator_name") with
        | none => rw [h4] at h; exact absurd h (by simp)
        | some idp =>
          rw [h4] at h
          simp only [] at h
          cases h5 : fn.firstFieldMatch "parameters" "parameter_list" with
          | none => rw [h5] at h; exact absurd h (by simp)
          | some plist =>
            rw [h5] at h
            simp only [] at h
            cases h6 : mapParseTypes (plist.children.filter (fun x =>
                x.kind = "parameter_declaration"
                || x.kind = "optional_parameter_declaration")) with
            | error e => rw [h6] at h; exact absurd h (by simp)
            | ok params =>
              rw [h6] at h
              simp only [] at h
              cases h7 : signatureText fn with
              | error e => rw [h7] at h; exact absurd h (by simp)
              | ok sig =>
                rw [h7] at h
                simp only [Except.ok.injEq] at h
                exact ⟨rt, d, chain, dd, rfl, rfl, h3, by rw [← h],
                  by rw [← h], by rw [← h]⟩

/-! ## Claim C1 -/

/-- A symbol record. -/
def fsNamedF : FunctionSymbol := ⟨"int", "f", "N::f", ["int"], [], none⟩

/-- The same record except for `symbol_name`. -/
def fsNamedG : FunctionSymbol := ⟨"int", "g", "N::f", ["int"], [], none⟩

/-- C1 counterexample: two `FunctionSymbol`s that differ only in
`symbol_name` (a field other than `source_text`) are unequal, as the claim
says, but they feed identical tuples to `__hash__` — `symbol_name` is
declared `field(hash=False)` — so hashing does not take every
non-`source_text` field into account. -/
theorem claim1_counterexample :
    fsNamedF.symbol_name ≠ fsNamedG.symbol_name ∧
    fsNamedF.return_type = fsNamedG.return_type ∧
    fsNamedF.qualified_symbol_name = fsNamedG.qualified_symbol_name ∧
    fsNamedF.param_list = fsNamedG.param_list ∧
    fsNamedF.modifiers = fsNamedG.modifiers ∧
    fsNamedF.source_text = fsNamedG.source_text ∧
    FunctionSymbol.pyEq fsNamedF fsNamedG = false ∧
    fsNamedF.hashFields = fsNamedG.hashFields := by
  refine ⟨?_, rfl, rfl, rfl, rfl, rfl, by decide, rfl⟩
  decide

/-- C1 (amended): dataclass equality covers every field except
`source_text`; the dataclass hash input covers every field except
`source_text` and additionally `symbol_name` (declared `field(hash=False)`),
so records differing only in `source_text` are equal and hash alike, records
differing in any other compared field are unequal, and records differing
only in `symbol_name` (and possibly `source_text`) are unequal yet still
hash alike. -/
theorem claim1_amended (a b : FunctionSymbol) :
    (FunctionSymbol.pyEq a b = true ↔
      (a.return_type = b.return_type ∧ a.symbol_name = b.symbol_name ∧
       a.qualified_symbol_name = b.qualified_symbol_name ∧
       a.param_list = b.param_list ∧ a.modifiers = b.modifiers)) ∧
    (a.hashFields = b.hashFields ↔
      (a.return_type = b.return_type ∧
       a.qualified_symbol_name = b.qualified_symbol_name ∧
       a.param_list = b.param_list ∧ a.modifiers = b.modifiers)) := by
  constructor
  · simp [FunctionSymbol.pyEq, FunctionSymbol.eqFields, Prod.ext_iff]
  · simp [FunctionSymbol.hashFields, Prod.ext_iff]

/-! ## Claim C2 -/

/-- C2 counterexample: a function defined inside `struct S { ... }` does
not receive `"S::"` as a qualifier, because the qualification filter keeps
only `namespace_definition` and `class_specifier` ancestors while a
`struct` scope parses to a `struct_specifier` node.  The struct ancestor is
present, named `S`, and yet the emitted qualified name is the bare `"f"`,
not `"S::f"`. -/
theorem claim2_counterexample :
    ((parseFunctions tStruct).map
      (fun l => l.map (fun s => s.qualified_symbol_name)) = .ok ["f"]) ∧
    structS.kind = "struct_specifier" ∧
    structS.childByFieldName "name" = some (.mk "type_identifier" "S" .nil) ∧
    (∃ pa ∈ functionMatches tStruct, pa.1 = fnStructMember ∧ structS ∈ pa.2) ∧
    ("f" : String) ≠ "S::f" := by
  refine ⟨by decide, rfl, by decide, ?_, by decide⟩
  refine ⟨(fnStructMember, [.mk "field_declaration_list"
    "\x7b int f()\x7b\x7d \x7d"
    (nl [(none, .mk "\x7b" "\x7b" .nil), (none, fnStructMember),
         (none, .mk "\x7d" "\x7d" .nil)]), structS, tStruct]), by decide, rfl,
    by decide⟩

/-- C2 (amended): the qualified name is built by collecting the ancestors
of the function declarator that are namespace or `class` scopes
(`namespace_definition`/`class_specifier`; `struct` scopes are *not*
collected), reversing them to outermost-first, taking each scope's
normalized `name` field (skipping anonymous scopes), joining with `::`, and
prefixing the declarator's base name only when at least one qualifier was
found; a function inside `namespace A { class B { ... } }` gets
`"A::B::name"`. -/
theorem claim2_amended :
    (∀ fn anc sym, parseFunction fn anc = .ok sym →
      ∃ d chain dd,
        fn.queryFirst (fun m => m.kind = "function_declarator")
          = some (d, chain) ∧
        d.childByFieldName "declarator" = some dd ∧
        sym.qualified_symbol_name
          = normalizeString (qualify (chain ++ fn :: anc) dd.text)) ∧
    ((parseFunctions tNsClass).map
      (fun l => l.map (fun s => s.qualified_symbol_name)) = .ok ["A::B::name"]) := by
  constructor
  · intro fn anc sym h
    obtain ⟨rt, d, chain, dd, _, h2, h3, _, h5, _⟩ := parseFunction_ok fn anc sym h
    exact ⟨d, chain, dd, h2, h3, h5⟩
  · decide

/-- Witness for the amended C2: instantiating its universal part on the
concrete `int simple_int(int x){}` tree. -/
theorem claim2_amended_witness :
    ∃ d chain dd,
      fnSimple.queryFirst (fun m => m.kind = "function_declarator")
        = some (d, chain) ∧
      d.childByFieldName "declarator" = some dd ∧
      (FunctionSymbol.mk "int" "simple_int" "simple_int" ["int"] []
        (some "int simple_int(int x)")).qualified_symbol_name
        = normalizeString (qualify (chain ++ fnSimple :: []) dd.text) :=
  claim2_amended.1 fnSimple []
    ⟨"int", "simple_int", "simple_int", ["int"], [], some "int simple_int(int x)"⟩
    (by decide)

/-! ## Claim C3 -/

/-- The array declarator `arr[]` of the `make_vector` fixture. -/
def arrNode : Node :=
  .mk "array_declarator" "arr[]"
    (nl [(some "declarator", .mk "identifier" "arr" .nil),
         (none, .mk "[" "[" .nil), (none, .mk "]" "]" .nil)])

/-- C3: an array declarator wrapper contributes a single `*` in place of
the array brackets (array-to-pointer decay); concretely,
`int* make_vector(int* arr[], size_t n){}` yields parameter types
`["int**", "size_t"]` and return type `"int*"`. -/
theorem claim3_array_decay :
    ((parseFunctions tMakeVector).map (fun l => l.map (fun s => s.param_list))
      = .ok [["int**", "size_t"]]) ∧
    ((parseFunctions tMakeVector).map (fun l => l.map (fun s => s.return_type))
      = .ok ["int*"]) ∧
    (∀ m : Node, m.kind = "array_declarator" →
      (∀ x ∈ m.children, x.kind ≠ "*" ∧ x.kind ≠ "&" ∧ x.kind ≠ "&&"
        ∧ x.kind ≠ "type_qualifier") →
      modifierTokens m = ["*"]) := by
  refine ⟨by decide, by decide, ?_⟩
  intro m hk hx
  unfold modifierTokens
  rw [hk]
  have h1 : m.children.filter
      (fun x => x.kind = "*" || x.kind = "&" || x.kind = "&&") = [] := by
    rw [List.filter_eq_nil_iff]
    intro a ha
    obtain ⟨g1, g2, g3, _⟩ := hx a ha
    simp [g1, g2, g3]
  have h2 : m.children.find? (fun x => x.kind = "type_qualifier") = none := by
    rw [List.find?_eq_none]
    intro a ha
    obtain ⟨_, _, _, g4⟩ := hx a ha
    simp [g4]
  rw [h1, h2]
  simp

/-- Witness for C3: its universal part applied to the concrete `arr[]`
array declarator of the fixture. -/
theorem claim3_witness : modifierTokens arrNode = ["*"] :=
  claim3_array_decay.2.2 arrNode rfl (by decide)

/-! ## Helper: an empty query search from an empty subtree scan -/

mutual

/-- If no node of the subtree satisfies `p`, a first-match search fails. -/
theorem firstMatch_of_not_any (p : Node → Bool) (n : Node) (acc : List Node)
    (h : n.anyNode p = false) : n.firstMatch p acc = none := by
  cases n with
  | mk k t cs =>
    rw [Node.anyNode] at h
    rw [Bool.or_eq_false_iff] at h
    rw [Node.firstMatch, if_neg (by simp [h.1])]
    exact firstMatchList_of_not_any p cs (Node.mk k t cs :: acc) h.2

/-- If no node of the child forest satisfies `p`, the search fails. -/
theorem firstMatchList_of_not_any (p : Node → Bool) (cs : NodeList)
    (acc : List Node) (h : cs.anyNodeList p = false) :
    cs.firstMatchList p acc = none := by
  cases cs with
  | nil => rfl
  | cons lbl c rest =>
    rw [NodeList.anyNodeList] at h
    rw [Bool.or_eq_false_iff] at h
    rw [NodeList.firstMatchList]
    rw [firstMatch_of_not_any p c acc h.1]
    exact firstMatchList_of_not_any p rest acc h.2

end

/-- If no node of the subtree satisfies `p`, the query finds nothing. -/
theorem queryFirst_of_not_any (p : Node → Bool) (root : Node)
    (h : root.anyNode p = false) : root.queryFirst p = none := by
  cases root with
  | mk k t cs =>
    have h2 := h
    rw [Node.anyNode, Bool.or_eq_false_iff] at h2
    rw [Node.queryFirst, if_neg (by simp [h2.1])]
    exact firstMatchList_of_not_any p cs [] h2.2

/-! ## Claim C10 -/

/-- C10: a parameter declaration containing no `identifier` node anywhere in
its subtree skips the declarator-wrapper walk entirely (the `IndexError` of
the empty identifier match is suppressed), so the produced type is only the
qualifiers and base type, dropping any pointer/reference/array markers:
the parameter in `void f(int*)` is rendered `"int"`, not `"int*"`. -/
theorem claim10_unnamed_param :
    (parseType pdAbstract = .ok "int") ∧
    ((parseFunctions tAbstract).map (fun l => l.map (fun s => s.param_list))
      = .ok [["int"]]) ∧
    (("int" : String) ≠ "int*") ∧
    (∀ pd tnode,
      (pd.kind = "parameter_declaration"
        ∨ pd.kind = "optional_parameter_declaration") →
      pd.childByFieldName "type" = some tnode →
      pd.anyNode (fun m => m.kind = "identifier") = false →
      parseType pd = .ok (normalizeString (String.intercalate " "
        ((pd.children.filter (fun x => x.kind = "type_qualifier")).map
          (fun x => pyStripStr x.text))
        ++ " " ++ pyStripStr tnode.text))) := by
  refine ⟨by decide, by decide, by decide, ?_⟩
  intro pd tnode hk hty hno
  have hq := queryFirst_of_not_any (fun m => m.kind = "identifier") pd hno
  unfold parseType
  rcases hk with h | h <;> simp [h, hty, hq, String.intercalate]

/-- Witness for C10: its universal part applied to the concrete unnamed
parameter `int*` of `void f(int*){}`. -/
theorem claim10_witness :
    parseType pdAbstract = .ok (normalizeString (String.intercalate " "
      ((pdAbstract.children.filter (fun x => x.kind = "type_qualifier")).map
        (fun x => pyStripStr x.text))
      ++ " " ++ pyStripStr (Node.mk "primitive_type" "int" .nil).text)) :=
  claim10_unnamed_param.2.2.2 pdAbstract (.mk "primitive_type" "int" .nil)
    (Or.inl rfl) (by decide) (by decide)

/-! ## Claim C6 -/

/-- C6: `modifiers` is exactly the normalized `type_qualifier` direct
children of the function declarator, in source order; a `throw()` exception
specifier (kind `throw_specifier`) never reaches modifiers, return type,
parameters, or `full_signature`; and `full_signature` is
`"{return_type} {qualified}({params}) {modifiers}"` with the trailing
segment omitted entirely when there are no modifiers.  The fixture is
`const std::string& error() const throw(){}`. -/
theorem claim6_modifiers_signature :
    ((parseFunctions tThrow).map (fun l => l.map (fun s => s.modifiers))
      = .ok [["const"]]) ∧
    ((parseFunctions tThrow).map (fun l => l.map (fun s => s.full_signature))
      = .ok ["const std::string& error() const"]) ∧
    ((parseFunctions tThrow).map (fun l => l.map (fun s => s.return_type))
      = .ok ["const std::string&"]) ∧
    ((parseFunctions tThrow).map (fun l => l.map (fun s => s.param_list))
      = .ok [[]]) ∧
    (occursIn "throw" "const std::string& error() const" = false) ∧
    (∀ fn anc sym, parseFunction fn anc = .ok sym →
      ∃ d chain,
        fn.queryFirst (fun m => m.kind = "function_declarator")
          = some (d, chain) ∧
        sym.modifiers = modifiersOf d) ∧
    (∀ fs : FunctionSymbol, fs.modifiers = [] →
      fs.full_signature
        = fs.return_type ++ " " ++ fs.qualified_symbol_name ++ "("
          ++ fs.params ++ ")") ∧
    (∀ fs : FunctionSymbol, fs.modifiers ≠ [] →
      fs.full_signature
        = fs.return_type ++ " " ++ fs.qualified_symbol_name ++ "("
          ++ fs.params ++ ") " ++ String.intercalate " " fs.modifiers) := by
  refine ⟨by decide, by decide, by decide, by decide, by decide, ?_, ?_, ?_⟩
  · intro fn anc sym h
    obtain ⟨rt, d, chain, dd, _, h2, _, _, _, h6⟩ := parseFunction_ok fn anc sym h
    exact ⟨d, chain, h2, h6⟩
  · intro fs h
    simp [FunctionSymbol.full_signature, h]
  · intro fs h
    rw [FunctionSymbol.full_signature, if_neg (by simp [h])]

/-- Witness for C6: its universal parts applied to concrete inputs — the
parsed `throw()` fixture and its symbol record. -/
theorem claim6_witness :
    (∃ d chain,
      fnThrow.queryFirst (fun m => m.kind = "function_declarator")
        = some (d, chain) ∧
      (FunctionSymbol.mk "const std::string&" "error" "error" [] ["const"]
        (some "const std::string& error() const throw()")).modifiers
        = modifiersOf d) ∧
    (FunctionSymbol.mk "int" "f" "f" [] [] none).full_signature = "int f()" ∧
    (FunctionSymbol.mk "int" "f" "f" [] ["const"] none).full_signature
      = "int f() const" := by
  refine ⟨claim6_modifiers_signature.2.2.2.2.2.1 fnThrow []
    ⟨"const std::string&", "error", "error", [], ["const"],
      some "const std::string& error() const throw()"⟩ (by decide), ?_, ?_⟩
  · rw [claim6_modifiers_signature.2.2.2.2.2.2.1
      ⟨"int", "f", "f", [], [], none⟩ rfl]
    decide
  · rw [claim6_modifiers_signature.2.2.2.2.2.2.2
      ⟨"int", "f", "f", [], ["const"], none⟩ (by decide)]
    decide

/-! ## Claim C7 -/

/-- The per-match contribution of `parse_functions`: nothing for a match
containing an error/placeholder node, the parsed symbol on success, nothing
on a (suppressed) failure. -/
def matchContribution (pa : Node × List Node) : List FunctionSymbol :=
  if hasErrorNode pa.1 then []
  else
    match parseFunction pa.1 pa.2 with
    | .ok s => [s]
    | .error _ => []

/-- On a successful run, `parse_functions` emits exactly the concatenation
of per-match contributions. -/
theorem parseFunctionsGo_ok (l : List (Node × List Node))
    (syms : List FunctionSymbol) (h : parseFunctionsGo l = .ok syms) :
    syms = l.flatMap matchContribution := by
  induction l generalizing syms with
  | nil =>
    rw [parseFunctionsGo, Except.ok.injEq] at h
    simp [← h]
  | cons pa rest ih =>
    obtain ⟨fn, anc⟩ := pa
    rw [parseFunctionsGo] at h
    rw [List.flatMap_cons]
    cases he : hasErrorNode fn with
    | true =>
      rw [he] at h
      simp only [if_true] at h
      simp [matchContribution, he, ih syms h]
    | false =>
      rw [he] at h
      simp only [Bool.false_eq_true, if_false] at h
      cases hp : parseFunction fn anc with
      | ok sym =>
        rw [hp] at h
        cases hr : parseFunctionsGo rest with
        | ok tl =>
          rw [hr] at h
          simp only [Except.ok.injEq] at h
          simp [matchContribution, he, hp, ← h, ih tl hr]
        | error e =>
          rw [hr] at h
          exact absurd h (by simp)
      | error e =>
        rw [hp] at h
        cases e with
        | parseError t =>
          simp only [] at h
          simp [matchContribution, he, hp, ih syms h]
        | typeError k => exact absurd h (by simp)
        | attrError => exact absurd h (by simp)

/-- C7: a function-definition match whose subtree contains an `ERROR` or
`MISSING` node yields zero records, while every other match still
contributes; concretely, a file with one garbled and one well-formed
function yields exactly the well-formed one's symbol. -/
theorem claim7_error_filter :
    (∀ root syms, parseFunctions root = .ok syms →
      syms = (functionMatches root).flatMap matchContribution) ∧
    (∀ pa : Node × List Node, hasErrorNode pa.1 = true →
      matchContribution pa = []) ∧
    hasErrorNode fnBroken = true ∧
    ((fnBroken, [tBrokenAndGood]) ∈ functionMatches tBrokenAndGood) ∧
    ((parseFunctions tBrokenAndGood).map
      (fun l => l.map (fun s => s.symbol_name)) = .ok ["simple_int"]) := by
  refine ⟨?_, ?_, by decide, by decide, by decide⟩
  · intro root syms h
    exact parseFunctionsGo_ok (functionMatches root) syms h
  · intro pa h
    simp [matchContribution, h]

/-- Witness for C7: its universal parts applied to the concrete
broken-plus-good fixture. -/
theorem claim7_witness :
    ([⟨"int", "simple_int", "simple_int", ["int"], [],
        some "int simple_int(int x)"⟩]
      = (functionMatches tBrokenAndGood).flatMap matchContribution) ∧
    matchContribution (fnBroken, [tBrokenAndGood]) = [] := by
  refine ⟨?_, ?_⟩
  · exact claim7_error_filter.1 tBrokenAndGood _ (by decide)
  · exact claim7_error_filter.2.1 (fnBroken, [tBrokenAndGood]) (by decide)

/-! ## Claim C9 -/

/-- C9 counterexample: the fixture `const char* f(){ return "abc"; }` has
exactly one string-literal node, its ancestor chain contains no include
directive, yet the literal extractor emits nothing — the literal has no
enclosing `declaration`/`expression_statement`, so the exhausted-generator
`StopIteration` is suppressed and the claimed record is never produced. -/
theorem claim9_counterexample :
    (((tReturnLiteral.preorderAnc []).filter (fun pa =>
        pa.1.kind = "string_literal"
        && !(pa.2.any (fun a => a.kind = "preproc_include")))).length = 1) ∧
    parseStringLiterals tReturnLiteral = [] := by
  constructor
  · decide
  · decide

/-- C9 (amended): for every string-literal node whose ancestor chain
contains no include directive *and* that has an enclosing
`declaration`/`expression_statement` ancestor, the extractor emits a
`StringLiteral` whose value is the trimmed text of the nearest such
ancestor (not the bare literal); every emitted record arises this way;
literals under an include directive, or with no such enclosing node, emit
nothing. -/
theorem claim9_amended :
    (∀ root pa p, pa ∈ root.preorderAnc [] → pa.1.kind = "string_literal" →
      pa.2.any (fun a => a.kind = "preproc_include") = false →
      pa.2.find? (fun a => a.kind = "declaration"
        || a.kind = "expression_statement") = some p →
      (⟨pyStripStr p.text⟩ : StringLiteral) ∈ parseStringLiterals root) ∧
    (∀ root v, v ∈ parseStringLiterals root →
      ∃ pa p, pa ∈ root.preorderAnc [] ∧ pa.1.kind = "string_literal" ∧
        pa.2.any (fun a => a.kind = "preproc_include") = false ∧
        pa.2.find? (fun a => a.kind = "declaration"
          || a.kind = "expression_statement") = some p ∧
        v = ⟨pyStripStr p.text⟩) ∧
    (parseStringLiterals tExprLiteral = [⟨"cout << \"version\";"⟩]) ∧
    (parseStringLiterals tInclude = []) ∧
    (parseStringLiterals tReturnLiteral = []) := by
  refine ⟨?_, ?_, by decide, by decide, by decide⟩
  · intro root pa p hmem hkind hinc hfind
    rw [parseStringLiterals, List.mem_filterMap]
    refine ⟨pa, hmem, ?_⟩
    rw [if_pos hkind, if_neg (by simp [hinc]), hfind]
    rfl
  · intro root v hv
    rw [parseStringLiterals, List.mem_filterMap] at hv
    obtain ⟨pa, hmem, hf⟩ := hv
    by_cases hkind : pa.1.kind = "string_literal"
    · rw [if_pos hkind] at hf
      cases hinc : pa.2.any (fun a => a.kind = "preproc_include") with
      | true => rw [hinc] at hf; exact absurd hf (by simp)
      | false =>
        rw [hinc, if_neg (by simp)] at hf
        cases hfind : pa.2.find? (fun a => a.kind = "declaration"
            || a.kind = "expression_statement") with
        | none => rw [hfind] at hf; exact absurd hf (by simp)
        | some p =>
          rw [hfind] at hf
          simp at hf
          exact ⟨pa, p, hmem, hkind, hinc, hfind, hf.symm⟩
    · rw [if_neg hkind] at hf
      exact absurd hf (by simp)

/-- Witness for the amended C9: its completeness direction applied to the
concrete emission of the `cout << "version";` fixture. -/
theorem claim9_amended_witness :
    ∃ pa p, pa ∈ tExprLiteral.preorderAnc [] ∧ pa.1.kind = "string_literal" ∧
      pa.2.any (fun a => a.kind = "preproc_include") = false ∧
      pa.2.find? (fun a => a.kind = "declaration"
        || a.kind = "expression_statement") = some p ∧
      (⟨"cout << \"version\";"⟩ : StringLiteral) = ⟨pyStripStr p.text⟩ :=
  claim9_amended.2.1 tExprLiteral ⟨"cout << \"version\";"⟩ (by decide)

/-! ## Claim C8: subtree membership machinery -/

mutual

/-- `anyNode` is monotone in the predicate. -/
theorem anyNode_imp (p q : Node → Bool) (hpq : ∀ m, p m = true → q m = true)
    (n : Node) (h : n.anyNode p = true) : n.anyNode q = true := by
  cases n with
  | mk k t cs =>
    rw [Node.anyNode] at h ⊢
    rw [Bool.or_eq_true] at h ⊢
    cases h with
    | inl h => exact Or.inl (hpq _ h)
    | inr h => exact Or.inr (anyNodeList_imp p q hpq cs h)

/-- `anyNodeList` is monotone in the predicate. -/
theorem anyNodeList_imp (p q : Node → Bool) (hpq : ∀ m, p m = true → q m = true)
    (cs : NodeList) (h : cs.anyNodeList p = true) : cs.anyNodeList q = true := by
  cases cs with
  | nil => exact absurd h (by simp [NodeList.anyNodeList])
  | cons lbl c rest =>
    rw [NodeList.anyNodeList] at h ⊢
    rw [Bool.or_eq_true] at h ⊢
    cases h with
    | inl h => exact Or.inl (anyNode_imp p q hpq c h)
    | inr h => exact Or.inr (anyNodeList_imp p q hpq rest h)

end

/-- Subtree membership: `d` occurs in the subtree rooted at `n`
(including `n` itself). -/
def inSubtree (d n : Node) : Bool := n.anyNode (fun m => m = d)

/-- Every node is in its own subtree. -/
theorem inSubtree_self (n : Node) : inSubtree n n = true := by
  cases n with
  | mk k t cs =>
    rw [inSubtree, Node.anyNode]
    simp

mutual

/-- A node satisfying `p` somewhere in the subtree makes `anyNode p` true. -/
theorem anyNode_of_inSubtree (p : Node → Bool) (d n : Node)
    (hmem : inSubtree d n = true) (hd : p d = true) : n.anyNode p = true := by
  cases n with
  | mk k t cs =>
    rw [inSubtree, Node.anyNode, Bool.or_eq_true] at hmem
    rw [Node.anyNode, Bool.or_eq_true]
    cases hmem with
    | inl h =>
      have : Node.mk k t cs = d := by simpa using h
      exact Or.inl (by rw [this]; exact hd)
    | inr h => exact Or.inr (anyNodeList_of_inSubtree p d cs h hd)

/-- Forest version of `anyNode_of_inSubtree`. -/
theorem anyNodeList_of_inSubtree (p : Node → Bool) (d : Node) (cs : NodeList)
    (hmem : cs.anyNodeList (fun m => m = d) = true) (hd : p d = true) :
    cs.anyNodeList p = true := by
  cases cs with
  | nil => exact absurd hmem (by simp [NodeList.anyNodeList])
  | cons lbl c rest =>
    rw [NodeList.anyNodeList, Bool.or_eq_true] at hmem
    rw [NodeList.anyNodeList, Bool.or_eq_true]
    cases hmem with
    | inl h => exact Or.inl (anyNode_of_inSubtree p d c h hd)
    | inr h => exact Or.inr (anyNodeList_of_inSubtree p d rest h hd)

end

mutual

/-- Walking into a subtree member preserves `anyNode` facts. -/
theorem anyNode_trans (p : Node → Bool) (d n : Node)
    (h1 : inSubtree d n = true) (h2 : d.anyNode p = true) :
    n.anyNode p = true := by
  cases n with
  | mk k t cs =>
    rw [inSubtree, Node.anyNode, Bool.or_eq_true] at h1
    rw [Node.anyNode, Bool.or_eq_true]
    cases h1 with
    | inl h =>
      have he : Node.mk k t cs = d := by simpa using h
      rw [← he] at h2
      rw [Node.anyNode, Bool.or_eq_true] at h2
      exact h2
    | inr h => exact Or.inr (anyNodeList_trans p d cs h h2)

/-- Forest version of `anyNode_trans`. -/
theorem anyNodeList_trans (p : Node → Bool) (d : Node) (cs : NodeList)
    (h1 : cs.anyNodeList (fun m => m = d) = true) (h2 : d.anyNode p = true) :
    cs.anyNodeList p = true := by
  cases cs with
  | nil => exact absurd h1 (by simp [NodeList.anyNodeList])
  | cons lbl c rest =>
    rw [NodeList.anyNodeList, Bool.or_eq_true] at h1
    rw [NodeList.anyNodeList, Bool.or_eq_true]
    cases h1 with
    | inl h => exact Or.inl (anyNode_trans p d c h h2)
    | inr h => exact Or.inr (anyNodeList_trans p d rest h h2)

end

/-- Subtree membership is transitive. -/
theorem inSubtree_trans (e d n : Node) (h1 : inSubtree e d = true)
    (h2 : inSubtree d n = true) : inSubtree e n = true :=
  anyNode_trans (fun m => m = e) d n h2 h1

mutual

/-- A successful first-match search returns a node of the subtree
satisfying the predicate. -/
theorem firstMatch_mem (p : Node → Bool) (n : Node) (acc : List Node)
    (d : Node) (ch : List Node) (h : n.firstMatch p acc = some (d, ch)) :
    p d = true ∧ inSubtree d n = true := by
  cases n with
  | mk k t cs =>
    rw [Node.firstMatch] at h
    by_cases hp : p (.mk k t cs)
    · rw [if_pos hp] at h
      simp only [Option.some.injEq, Prod.mk.injEq] at h
      rw [← h.1]
      exact ⟨hp, inSubtree_self _⟩
    · rw [if_neg hp] at h
      obtain ⟨h1, h2⟩ := firstMatchList_mem p cs _ d ch h
      refine ⟨h1, ?_⟩
      rw [inSubtree, Node.anyNode, Bool.or_eq_true]
      exact Or.inr h2

/-- Forest version of `firstMatch_mem`. -/
theorem firstMatchList_mem (p : Node → Bool) (cs : NodeList) (acc : List Node)
    (d : Node) (ch : List Node) (h : cs.firstMatchList p acc = some (d, ch)) :
    p d = true ∧ cs.anyNodeList (fun m => m = d) = true := by
  cases cs with
  | nil => exact absurd h (by simp [NodeList.firstMatchList])
  | cons lbl c rest =>
    rw [NodeList.firstMatchList] at h
    cases hc : c.firstMatch p acc with
    | some r =>
      rw [hc] at h
      simp only [Option.some.injEq] at h
      rw [h] at hc
      obtain ⟨h1, h2⟩ := firstMatch_mem p c acc d ch hc
      refine ⟨h1, ?_⟩
      rw [NodeList.anyNodeList, Bool.or_eq_true]
      exact Or.inl h2
    | none =>
      rw [hc] at h
      obtain ⟨h1, h2⟩ := firstMatchList_mem p rest acc d ch h
      refine ⟨h1, ?_⟩
      rw [NodeList.anyNodeList, Bool.or_eq_true]
      exact Or.inr h2

end

/-- A successful query returns a node of the subtree satisfying the
predicate. -/
theorem queryFirst_mem (p : Node → Bool) (root d : Node) (ch : List Node)
    (h : root.queryFirst p = some (d, ch)) :
    p d = true ∧ inSubtree d root = true := by
  rw [Node.queryFirst] at h
  by_cases hp : p root
  · rw [if_pos hp] at h
    simp only [Option.some.injEq, Prod.mk.injEq] at h
    rw [← h.1]
    exact ⟨hp, inSubtree_self _⟩
  · rw [if_neg hp] at h
    cases root with
    | mk k t cs =>
      obtain ⟨h1, h2⟩ := firstMatchList_mem p cs [] d ch h
      refine ⟨h1, ?_⟩
      rw [inSubtree, Node.anyNode, Bool.or_eq_true]
      exact Or.inr h2

mutual

/-- A successful field-query returns a subtree node of the required kind. -/
theorem firstFieldMatch_mem (f k : String) (n c : Node)
    (h : n.firstFieldMatch f k = some c) :
    inSubtree c n = true ∧ c.kind = k := by
  cases n with
  | mk kd t cs =>
    rw [Node.firstFieldMatch] at h
    obtain ⟨h1, h2⟩ := firstFieldMatchList_mem f k cs c h
    refine ⟨?_, h2⟩
    rw [inSubtree, Node.anyNode, Bool.or_eq_true]
    exact Or.inr h1

/-- Forest version of `firstFieldMatch_mem`. -/
theorem firstFieldMatchList_mem (f k : String) (cs : NodeList) (c : Node)
    (h : cs.firstFieldMatchList f k = some c) :
    cs.anyNodeList (fun m => m = c) = true ∧ c.kind = k := by
  cases cs with
  | nil => exact absurd h (by simp [NodeList.firstFieldMatchList])
  | cons lbl ch rest =>
    rw [NodeList.firstFieldMatchList] at h
    by_cases hc : lbl = some f && ch.kind = k
    · rw [if_pos hc] at h
      simp only [Option.some.injEq] at h
      rw [← h]
      rw [Bool.and_eq_true] at hc
      refine ⟨?_, by simpa using hc.2⟩
      rw [NodeList.anyNodeList, Bool.or_eq_true]
      exact Or.inl (inSubtree_self ch)
    · rw [if_neg hc] at h
      cases hm : ch.firstFieldMatch f k with
      | some r =>
        rw [hm] at h
        simp only [Option.some.injEq] at h
        rw [h] at hm
        obtain ⟨h1, h2⟩ := firstFieldMatch_mem f k ch c hm
        refine ⟨?_, h2⟩
        rw [NodeList.anyNodeList, Bool.or_eq_true]
        exact Or.inl h1
      | none =>
        rw [hm] at h
        obtain ⟨h1, h2⟩ := firstFieldMatchList_mem f k rest c h
        refine ⟨?_, h2⟩
        rw [NodeList.anyNodeList, Bool.or_eq_true]
        exact Or.inr h1

end

/-- Children are subtree members (forest form). -/
theorem toNodes_mem (cs : NodeList) (c : Node) (h : c ∈ cs.toNodes) :
    cs.anyNodeList (fun m => m = c) = true := by
  cases cs with
  | nil => exact absurd h (by simp [NodeList.toNodes])
  | cons lbl ch rest =>
    rw [NodeList.toNodes] at h
    rw [NodeList.anyNodeList, Bool.or_eq_true]
    cases h with
    | head => exact Or.inl (inSubtree_self _)
    | tail _ hmem => exact Or.inr (toNodes_mem rest c hmem)

/-- A child of a node is in its subtree. -/
theorem children_inSubtree (n c : Node) (h : c ∈ n.children) :
    inSubtree c n = true := by
  cases n with
  | mk k t cs =>
    rw [inSubtree, Node.anyNode, Bool.or_eq_true]
    exact Or.inr (toNodes_mem cs c h)

/-! ## Claim C8: grammar shape invariants and totality -/

/-- The tree-sitter-cpp grammar shape invariants the parser relies on: a
`function_declarator` node always carries a `declarator` field, and
`function_definition` / (optional) `parameter_declaration` nodes always
carry a `type` field.  These fields are mandatory in the grammar rules, so
every tree produced by the library satisfies them. -/
def nodeWF (n : Node) : Bool :=
  (!(n.kind = "function_declarator") || (n.childByFieldName "declarator").isSome)
  && (!(n.kind = "function_definition" || n.kind = "parameter_declaration"
        || n.kind = "optional_parameter_declaration")
      || (n.childByFieldName "type").isSome)

/-- Every node of the tree satisfies the grammar shape invariants. -/
def treeWF (root : Node) : Bool := !(root.anyNode (fun n => !(nodeWF n)))

/-- Shape invariants transfer to subtree members. -/
theorem nodeWF_of_treeWF (root d : Node) (hwf : treeWF root = true)
    (hmem : inSubtree d root = true) : nodeWF d = true := by
  by_contra hne
  have hd : (!(nodeWF d)) = true := by
    rw [Bool.not_eq_true] at hne
    rw [hne]
    rfl
  have h2 := anyNode_of_inSubtree (fun n => !(nodeWF n)) d root hmem hd
  rw [treeWF, h2] at hwf
  exact absurd hwf (by decide)

/-- `_parse_type` succeeds on a function node with a `type` field. -/
theorem parseType_ok_fn (fn : Node) (hk : fn.kind = "function_definition")
    (hty : (fn.childByFieldName "type").isSome = true) :
    ∃ s, parseType fn = .ok s := by
  obtain ⟨tnode, htn⟩ := Option.isSome_iff_exists.mp hty
  unfold parseType
  simp [hk, htn]

/-- `_parse_type` succeeds on a parameter node with a `type` field. -/
theorem parseType_ok_param (pd : Node)
    (hk : pd.kind = "parameter_declaration"
      ∨ pd.kind = "optional_parameter_declaration")
    (hty : (pd.childByFieldName "type").isSome = true) :
    ∃ s, parseType pd = .ok s := by
  obtain ⟨tnode, htn⟩ := Option.isSome_iff_exists.mp hty
  unfold parseType
  rcases hk with h | h <;> simp [h, htn]

/-- `_parse_type` never raises the structured `ParseError`: its own
`IndexError` is suppressed and the remaining failures are `TypeError` /
`AttributeError`. -/
theorem parseType_no_parseError (n : Node) (t : String) :
    parseType n ≠ .error (.parseError t) := by
  unfold parseType
  by_cases h1 : (n.kind = "function_definition"
      || (n.kind = "parameter_declaration"
        || n.kind = "optional_parameter_declaration")) = true
  · rw [if_pos (by simpa using h1)]
    cases h2 : n.childByFieldName "type" <;> simp
  · rw [if_neg (by simpa using h1)]
    simp

/-- The parameter comprehension succeeds when each element type-parses. -/
theorem mapParseTypes_ok (l : List Node)
    (h : ∀ p ∈ l, ∃ s, parseType p = .ok s) :
    ∃ ts, mapParseTypes l = .ok ts := by
  induction l with
  | nil => exact ⟨[], rfl⟩
  | cons p rest ih =>
    obtain ⟨s, hs⟩ := h p (by simp)
    obtain ⟨ts, hts⟩ := ih (fun q hq => h q (by simp [hq]))
    exact ⟨normalizeString s :: ts, by rw [mapParseTypes, hs, hts]⟩

/-- The comprehension propagates only the errors of `_parse_type`, never a
`ParseError` of its own. -/
theorem mapParseTypes_no_parseError (l : List Node) (t : String) :
    mapParseTypes l ≠ .error (.parseError t) := by
  induction l with
  | nil => simp [mapParseTypes]
  | cons p rest ih =>
    rw [mapParseTypes]
    cases hs : parseType p with
    | error e =>
      intro hc
      simp only [Except.error.injEq] at hc
      exact parseType_no_parseError p t (by rw [hs, hc])
    | ok s =>
      cases hr : mapParseTypes rest with
      | error e =>
        intro hc
        simp only [Except.error.injEq] at hc
        exact ih (by rw [hr, hc])
      | ok ts => simp

/-- `_signature_text` succeeds on a function definition node. -/
theorem signatureText_ok (fn : Node) (h : fn.kind = "function_definition") :
    ∃ s, signatureText fn = .ok s := by
  unfold signatureText
  rw [if_neg (by rw [h]; decide), if_pos (by rw [h])]
  cases fn.childByFieldName "body" <;> simp

/-- Under the grammar shape invariants, `parse_function` either succeeds or
raises exactly the structured `ParseError` carrying the function node's
stripped raw text — never a bare `TypeError`/`AttributeError`. -/
theorem parseFunction_ok_or_parseError (fn : Node) (anc : List Node)
    (hkind : fn.kind = "function_definition")
    (hty : (fn.childByFieldName "type").isSome = true)
    (hwf : ∀ d, inSubtree d fn = true → nodeWF d = true) :
    (∃ sym, parseFunction fn anc = .ok sym) ∨
    parseFunction fn anc = .error (.parseError (pyStripStr fn.text)) := by
  obtain ⟨rt, hrt⟩ := parseType_ok_fn fn hkind hty
  unfold parseFunction
  rw [hrt]
  simp only []
  cases hq : fn.queryFirst (fun m => m.kind = "function_declarator") with
  | none => exact Or.inr rfl
  | some dc =>
    obtain ⟨d, chain⟩ := dc
    simp only []
    obtain ⟨hpd, hmemd⟩ := queryFirst_mem _ fn d chain hq
    have hwd := hwf d hmemd
    have hkd : d.kind = "function_declarator" := by simpa using hpd
    rw [nodeWF, hkd] at hwd
    simp at hwd
    obtain ⟨dd, hdd2⟩ := Option.isSome_iff_exists.mp hwd
    rw [hdd2]
    simp only []
    cases hqi : d.queryFirst (fun m => m.kind = "identifier"
        || m.kind = "field_identifier" || m.kind = "operator_name") with
    | none => exact Or.inr rfl
    | some ip =>
      obtain ⟨idn, rest2⟩ := ip
      simp only []
      cases hpl : fn.firstFieldMatch "parameters" "parameter_list" with
      | none => exact Or.inr rfl
      | some plist =>
        simp only []
        obtain ⟨hplmem, hplkind⟩ := firstFieldMatch_mem _ _ fn plist hpl
        have hparams : ∀ p ∈ plist.children.filter (fun x =>
            x.kind = "parameter_declaration"
            || x.kind = "optional_parameter_declaration"),
            ∃ s, parseType p = .ok s := by
          intro p hp
          have hmem0 : p ∈ plist.children := List.mem_of_mem_filter hp
          have hkindp := List.of_mem_filter hp
          have hmemfn : inSubtree p fn = true :=
            inSubtree_trans p plist fn (children_inSubtree plist p hmem0) hplmem
          have hwp := hwf p hmemfn
          have hkp : p.kind = "parameter_declaration"
              ∨ p.kind = "optional_parameter_declaration" := by
            simpa using hkindp
          refine parseType_ok_param p hkp ?_
          rw [nodeWF] at hwp
          rw [Bool.and_eq_true] at hwp
          have h2 := hwp.2
          rw [Bool.or_eq_true] at h2
          cases h2 with
          | inl hh =>
            exfalso
            rcases hkp with hk1 | hk1 <;> simp [hk1] at hh
          | inr hh => exact hh
        obtain ⟨ts, hts⟩ := mapParseTypes_ok _ hparams
        rw [hts]
        simp only []
        obtain ⟨sig, hsig⟩ := signatureText_ok fn hkind
        rw [hsig]
        exact Or.inl ⟨_, rfl⟩

/-- `_signature_text` never raises the structured `ParseError`. -/
theorem signatureText_no_parseError (fn : Node) (t : String) :
    signatureText fn ≠ .error (.parseError t) := by
  unfold signatureText
  by_cases h1 : fn.kind = "declaration"
  · rw [if_pos h1]; simp
  · rw [if_neg h1]
    by_cases h2 : fn.kind = "function_definition"
    · rw [if_pos h2]; cases fn.childByFieldName "body" <;> simp
    · rw [if_neg h2]; simp

/-- Whenever `parse_function` raises the structured `ParseError`, the
attached text is the function node's stripped raw text. -/
theorem parseFunction_parseError_text (fn : Node) (anc : List Node)
    (t : String) (h : parseFunction fn anc = .error (.parseError t)) :
    t = pyStripStr fn.text := by
  unfold parseFunction at h
  cases h1 : parseType fn with
  | error e =>
    rw [h1] at h
    simp only [Except.error.injEq] at h
    exact absurd (by rw [h1, h]) (parseType_no_parseError fn t)
  | ok rt =>
    rw [h1] at h
    simp only [] at h
    cases h2 : fn.queryFirst (fun m => m.kind = "function_declarator") with
    | none =>
      rw [h2] at h
      simp only [Except.error.injEq, PyErr.parseError.injEq] at h
      exact h.symm
    | some dc =>
      obtain ⟨d, chain⟩ := dc
      rw [h2] at h
      simp only [] at h
      cases h3 : d.childByFieldName "declarator" with
      | none => rw [h3] at h; exact absurd h (by simp)
      | some dd =>
        rw [h3] at h
        simp only [] at h
        cases h4 : d.queryFirst (fun m => m.kind = "identifier"
            || m.kind = "field_identifier" || m.kind = "operator_name") with
        | none =>
          rw [h4] at h
          simp only [Except.error.injEq, PyErr.parseError.injEq] at h
          exact h.symm
        | some idp =>
          rw [h4] at h
          simp only [] at h
          cases h5 : fn.firstFieldMatch "parameters" "parameter_list" with
          | none =>
            rw [h5] at h
            simp only [Except.error.injEq, PyErr.parseError.injEq] at h
            exact h.symm
          | some plist =>
            rw [h5] at h
            simp only [] at h
            cases h6 : mapParseTypes (plist.children.filter (fun x =>
                x.kind = "parameter_declaration"
                || x.kind = "optional_parameter_declaration")) with
            | error e =>
              rw [h6] at h
              simp only [Except.error.injEq] at h
              exact absurd (by rw [h6, h]) (mapParseTypes_no_parseError _ t)
            | ok params =>
              rw [h6] at h
              simp only [] at h
              cases h7 : signatureText fn with
              | error e =>
                rw [h7] at h
                simp only [Except.error.injEq] at h
                exact absurd (by rw [h7, h]) (signatureText_no_parseError fn t)
              | ok sig =>
                rw [h7] at h
                exact absurd h (by simp)

mutual

/-- Every entry of a pre-order listing is a subtree member. -/
theorem preorderAnc_mem (n : Node) (acc : List Node) (pa : Node × List Node)
    (h : pa ∈ n.preorderAnc acc) : inSubtree pa.1 n = true := by
  cases n with
  | mk k t cs =>
    rw [Node.preorderAnc] at h
    cases h with
    | head => exact inSubtree_self _
    | tail _ hmem =>
      rw [inSubtree, Node.anyNode, Bool.or_eq_true]
      exact Or.inr (preorderAncList_mem cs _ pa hmem)

/-- Forest version of `preorderAnc_mem`. -/
theorem preorderAncList_mem (cs : NodeList) (acc : List Node)
    (pa : Node × List Node) (h : pa ∈ cs.preorderAnc acc) :
    cs.anyNodeList (fun m => m = pa.1) = true := by
  cases cs with
  | nil => exact absurd h (by simp [NodeList.preorderAnc])
  | cons lbl c rest =>
    rw [NodeList.preorderAnc] at h
    rw [NodeList.anyNodeList, Bool.or_eq_true]
    rcases List.mem_append.mp h with h | h
    · exact Or.inl (preorderAnc_mem c acc pa h)
    · exact Or.inr (preorderAncList_mem rest acc pa h)

end

/-- Under the per-match preconditions, the extraction loop never
propagates an exception. -/
theorem parseFunctionsGo_total (l : List (Node × List Node))
    (h : ∀ pa ∈ l, pa.1.kind = "function_definition"
      ∧ (pa.1.childByFieldName "type").isSome = true
      ∧ (∀ d, inSubtree d pa.1 = true → nodeWF d = true)) :
    ∃ syms, parseFunctionsGo l = .ok syms := by
  induction l with
  | nil => exact ⟨[], rfl⟩
  | cons pa rest ih =>
    obtain ⟨fn, anc⟩ := pa
    obtain ⟨hk, hty, hwf⟩ := h (fn, anc) (by simp)
    obtain ⟨syms, hsyms⟩ := ih (fun q hq => h q (by simp [hq]))
    rw [parseFunctionsGo]
    cases he : hasErrorNode fn with
    | true => exact ⟨syms, by rw [if_pos rfl]; exact hsyms⟩
    | false =>
      rw [if_neg (by simp)]
      rcases parseFunction_ok_or_parseError fn anc hk hty hwf with ⟨sym, hok⟩ | herr
      · rw [hok, hsyms]
        exact ⟨sym :: syms, rfl⟩
      · rw [herr]
        exact ⟨syms, hsyms⟩

/-- A function definition with an unexpected declarator shape (no
`function_declarator` anywhere), triggering the suppressed per-item
failure. -/
def fnOddDecl : Node :=
  .mk "function_definition" "int x \x7b\x7d"
    (nl [(some "type", .mk "primitive_type" "int" .nil),
         (some "declarator", .mk "identifier" "x" .nil),
         (some "body", .mk "compound_statement" "\x7b\x7d" .nil)])

/-- C8: on any tree satisfying the tree-sitter grammar shape invariants
(`treeWF` — mandatory fields are present), the function extractor returns a
value and never propagates an exception: every per-item failure is the
structured `ParseError`, which is suppressed so that only that single
match is dropped and iteration continues (the flatMap characterization),
and the structured failure always carries the offending function node's
stripped raw text.  The define and literal extractors are modelled as
total functions into lists — their only failure modes (`UnicodeDecodeError`
per item, `StopIteration` per literal) are suppressed in the source — so
they cannot raise by construction. -/
theorem claim8_no_raise :
    (∀ root, treeWF root = true → ∃ syms, parseFunctions root = .ok syms) ∧
    (∀ fn anc t, parseFunction fn anc = .error (.parseError t) →
      t = pyStripStr fn.text) ∧
    (∀ root syms, parseFunctions root = .ok syms →
      syms = (functionMatches root).flatMap matchContribution) := by
  refine ⟨?_, parseFunction_parseError_text, ?_⟩
  · intro root hwf
    apply parseFunctionsGo_total
    intro pa hpa
    rw [functionMatches, List.mem_filter] at hpa
    obtain ⟨hmem, hq⟩ := hpa
    have hroot : inSubtree pa.1 root = true := preorderAnc_mem root [] pa hmem
    rw [Bool.and_eq_true, Bool.and_eq_true] at hq
    refine ⟨by simpa using hq.1.1, hq.1.2, ?_⟩
    intro d hd
    exact nodeWF_of_treeWF root d hwf (inSubtree_trans d pa.1 root hd hroot)
  · intro root syms h
    exact parseFunctionsGo_ok (functionMatches root) syms h

/-- Witness for C8: its universal parts applied to the broken-plus-good
fixture tree and to a concrete function with a malformed declarator. -/
theorem claim8_witness :
    (∃ syms, parseFunctions tBrokenAndGood = .ok syms) ∧
    ("int x \x7b\x7d" = pyStripStr fnOddDecl.text) := by
  constructor
  · exact claim8_no_raise.1 tBrokenAndGood (by decide)
  · exact claim8_no_raise.2.1 fnOddDecl [] "int x \x7b\x7d" (by decide)

/-! ## Claim C4: stage lemmas for pointer-chain return types -/

/-- No character of `l` is whitespace. -/
def wsFree (l : List Char) : Prop := ∀ c ∈ l, pyIsSpace c = false

/-- Stage 1 is the identity on newline-free text. -/
theorem r1_eq_self (l : List Char) (h : ∀ c ∈ l, c ≠ '\n') : r1 l = l := by
  induction l with
  | nil => rfl
  | cons c rest ih =>
    rw [r1, List.map_cons]
    rw [if_neg (h c (by simp))]
    have := ih (fun d hd => h d (by simp [hd]))
    rw [r1] at this
    rw [this]

/-- Whitespace-free text is newline-free. -/
theorem wsFree_no_newline (l : List Char) (h : wsFree l) : ∀ c ∈ l, c ≠ '\n' := by
  intro c hc he
  have := h c hc
  rw [he] at this
  exact absurd this (by decide)

/-- A whitespace-free block passes through stage 2 unchanged (prepended to
any tail). -/
theorem r2_append_wsFree (a t : List Char) (h : wsFree a) :
    r2 (a ++ t) = a ++ r2 t := by
  induction a with
  | nil => rfl
  | cons c rest ih =>
    rw [List.cons_append, r2, if_neg (by simp [h c (by simp)])]
    rw [ih (fun d hd => h d (by simp [hd]))]
    rfl

/-- `starAfterWs` on a list with a non-whitespace head that is not `*`/`&`. -/
theorem starAfterWs_head (c : Char) (rest : List Char)
    (h1 : pyIsSpace c = false) (h2 : c ≠ '*') (h3 : c ≠ '&') :
    starAfterWs (c :: rest) = false := by
  rw [starAfterWs, if_neg (by simp [h1])]
  simp [h2, h3]

/-- The `"* * ... *"` text produced by joining `n` star modifiers with
single spaces. -/
def sjoinL : Nat → List Char
  | 0 => []
  | 1 => ['*']
  | n + 2 => '*' :: ' ' :: sjoinL (n + 1)

/-- Unfolding equation for stage 3 on two or more characters. -/
theorem r3_cons_cons (c d : Char) (rest : List Char) :
    r3 (c :: d :: rest)
      = if c = ',' && !pyIsSpace d then c :: ' ' :: r3 (d :: rest)
        else c :: r3 (d :: rest) := rfl

/-- The head of a star join of positive length is a star. -/
theorem starAfterWs_sjoinL (n : Nat) : starAfterWs (sjoinL (n + 1)) = true := by
  match n with
  | 0 => rfl
  | k + 1 => rfl

/-- Stage 2 deletes the separating spaces of a star join. -/
theorem r2_sjoinL (n : Nat) : r2 (sjoinL n) = List.replicate n '*' := by
  match n with
  | 0 => rfl
  | 1 => rfl
  | k + 2 =>
    rw [sjoinL]
    rw [r2, if_neg (by rw [show pyIsSpace '*' = false from rfl]; simp)]
    rw [r2, if_pos (by rw [show pyIsSpace ' ' = true from rfl,
      starAfterWs_sjoinL k]; rfl)]
    rw [r2_sjoinL (k + 1)]
    rfl

/-- Stage 3 distributes over an append when the left block does not end in
a comma. -/
theorem r3_append (b t : List Char) (hb : b ≠ [])
    (hl : b.getLast? ≠ some ',') : r3 (b ++ t) = r3 b ++ r3 t := by
  match b with
  | [] => exact absurd rfl hb
  | [x] =>
    match t with
    | [] => rfl
    | d :: t2 =>
      have hx : x ≠ ',' := by
        intro he
        exact hl (by rw [he]; rfl)
      have hcond : ¬ ((x = ',' && !pyIsSpace d) = true) := by
        rw [Bool.and_eq_true]
        rintro ⟨h1, h2⟩
        exact hx (by simpa using h1)
      rw [List.singleton_append, r3_cons_cons, if_neg hcond]
      rfl
  | x :: y :: b2 =>
    have hl2 : (y :: b2).getLast? ≠ some ',' := by
      rw [show (x :: y :: b2).getLast? = (y :: b2).getLast? from rfl] at hl
      exact hl
    have ih := r3_append (y :: b2) t (by simp) hl2
    rw [show (x :: y :: b2) ++ t = x :: y :: (b2 ++ t) from rfl]
    rw [r3_cons_cons x y (b2 ++ t), r3_cons_cons x y b2]
    by_cases hc : (x = ',' && !pyIsSpace y) = true
    · rw [if_pos hc, if_pos hc]
      rw [show (y :: (b2 ++ t)) = (y :: b2) ++ t from rfl, ih]
      rfl
    · rw [if_neg hc, if_neg hc]
      rw [show (y :: (b2 ++ t)) = (y :: b2) ++ t from rfl, ih]
      rfl

/-- Stage 3 is the identity on comma-free text. -/
theorem r3_eq_self (l : List Char) (h : ∀ c ∈ l, c ≠ ',') : r3 l = l := by
  match l with
  | [] => rfl
  | [x] => rfl
  | x :: y :: l2 =>
    rw [r3, if_neg (by simp [h x (by simp)])]
    rw [r3_eq_self (y :: l2) (fun d hd => h d (by simp at hd ⊢; tauto))]

/-- A star join is comma-free. -/
theorem sjoinL_no_comma (n : Nat) : ∀ c ∈ sjoinL n, c ≠ ',' := by
  induction n with
  | zero => intro c hc; exact absurd hc (by simp [sjoinL])
  | succ m ih =>
    match m, ih with
    | 0, _ => intro c hc; simp [sjoinL] at hc; simp [hc]
    | k + 1, ih =>
      intro c hc
      rw [sjoinL] at hc
      simp only [List.mem_cons] at hc
      rcases hc with h | h | h
      · simp [h]
      · simp [h]
      · exact ih c h

/-- Replicated stars are whitespace-free. -/
theorem wsFree_replicate_star (n : Nat) : wsFree (List.replicate n '*') := by
  intro c hc
  rw [List.eq_of_mem_replicate hc]
  decide

/-- Characters of a star join. -/
theorem sjoinL_mem (n : Nat) : ∀ c ∈ sjoinL n, c = '*' ∨ c = ' ' := by
  match n with
  | 0 => intro c hc; exact absurd hc (by simp [sjoinL])
  | 1 => intro c hc; simp [sjoinL] at hc; simp [hc]
  | k + 2 =>
    intro c hc
    rw [sjoinL] at hc
    simp only [List.mem_cons] at hc
    rcases hc with h | h | h
    · simp [h]
    · simp [h]
    · exact sjoinL_mem (k + 1) c h

/-- Skipping whitespace stops inside a block that contains a
non-whitespace character. -/
theorem wsEndsAtGt_append (u t : List Char) (z : Char)
    (hz : u.getLast? = some z) (hw : pyIsSpace z = false) :
    wsEndsAtGt (u ++ t) = wsEndsAtGt u := by
  match u with
  | [] => exact absurd hz (by simp)
  | [x] =>
    have : x = z := by simpa using hz
    rw [this]
    rw [List.singleton_append, wsEndsAtGt, if_neg (by simp [hw]),
      wsEndsAtGt, if_neg (by simp [hw])]
  | x :: y :: u2 =>
    have hz2 : (y :: u2).getLast? = some z := by
      rw [← hz]
      exact (List.getLast?_cons_cons ..).symm
    by_cases hx : pyIsSpace x = true
    · rw [show (x :: y :: u2) ++ t = x :: ((y :: u2) ++ t) from rfl]
      rw [wsEndsAtGt, if_pos hx, wsEndsAtGt, if_pos hx]
      exact wsEndsAtGt_append (y :: u2) t z hz2 hw
    · rw [show (x :: y :: u2) ++ t = x :: ((y :: u2) ++ t) from rfl]
      rw [wsEndsAtGt, if_neg hx, wsEndsAtGt, if_neg hx]

/-- Stage 4 is the identity on whitespace-free text, for any flag. -/
theorem r4go_wsFree (t : List Char) (h : wsFree t) (f : Bool) :
    r4go f t = t := by
  match t with
  | [] => rfl
  | c :: t2 =>
    rw [r4go, if_neg (by simp [h c (by simp)])]
    rw [r4go_wsFree t2 (fun d hd => h d (by simp [hd])) (c = '<')]

/-- Unfolding equation for the stage 4 worker on a non-empty list. -/
theorem r4go_cons (f : Bool) (c : Char) (rest : List Char) :
    r4go f (c :: rest)
      = if pyIsSpace c = true then
          (if (f || wsEndsAtGt (c :: rest)) = true then r4go f rest
           else c :: r4go false rest)
        else c :: r4go (c = '<') rest := rfl

/-- `getLast?` ignores a freshly prepended element on a non-empty list. -/
theorem getLast?_cons_ne (a : Char) (l : List Char) (h : l ≠ []) :
    (a :: l).getLast? = l.getLast? := by
  cases l with
  | nil => exact absurd rfl h
  | cons b l2 => exact List.getLast?_cons_cons ..

/-- Stage 4 distributes over an append when the left block ends in a
non-whitespace character and the right block is whitespace-free. -/
theorem r4go_append (u t : List Char) (z : Char) (hz : u.getLast? = some z)
    (hwz : pyIsSpace z = false) (ht : wsFree t) (f : Bool) :
    r4go f (u ++ t) = r4go f u ++ t := by
  match u with
  | [] => exact absurd hz (by simp)
  | [x] =>
    have hxz : x = z := by simpa using hz
    rw [List.singleton_append]
    rw [r4go, if_neg (by rw [hxz]; simp [hwz])]
    rw [r4go_wsFree t ht (x = '<')]
    rw [r4go, if_neg (by rw [hxz]; simp [hwz])]
    rfl
  | x :: y :: u2 =>
    have hz2 : (y :: u2).getLast? = some z := by
      rw [← hz]
      exact (List.getLast?_cons_cons ..).symm
    have hwe := wsEndsAtGt_append (x :: y :: u2) t z hz hwz
    simp only [List.cons_append] at hwe
    have hrec : ∀ g : Bool, r4go g (y :: (u2 ++ t)) = r4go g (y :: u2) ++ t := by
      intro g
      have := r4go_append (y :: u2) t z hz2 hwz ht g
      simpa only [List.cons_append] using this
    simp only [List.cons_append]
    rw [r4go_cons f x (y :: (u2 ++ t)), r4go_cons f x (y :: u2)]
    by_cases hx : pyIsSpace x = true
    · rw [if_pos hx, if_pos hx]
      rw [hwe]
      by_cases hg : (f || wsEndsAtGt (x :: y :: u2)) = true
      · rw [if_pos hg, if_pos hg]
        exact hrec f
      · rw [if_neg hg, if_neg hg]
        rw [hrec false]
        rfl
    · rw [if_neg hx, if_neg hx]
      rw [hrec (x = '<')]
      rfl

/-- Stage 4 deletes only whitespace, so it keeps a non-whitespace final
character in final position. -/
theorem r4go_getLast (u : List Char) (z : Char) (hz : u.getLast? = some z)
    (hwz : pyIsSpace z = false) (f : Bool) :
    (r4go f u).getLast? = some z := by
  match u with
  | [] => exact absurd hz (by simp)
  | [x] =>
    have hxz : x = z := by simpa using hz
    rw [r4go, if_neg (by rw [hxz]; simp [hwz])]
    rw [hxz]
    rfl
  | x :: y :: u2 =>
    have hz2 : (y :: u2).getLast? = some z := by
      rw [← hz]
      exact (List.getLast?_cons_cons ..).symm
    have htail : ∀ g : Bool, (r4go g (y :: u2)).getLast? = some z :=
      fun g => r4go_getLast (y :: u2) z hz2 hwz g
    have hne : ∀ g : Bool, r4go g (y :: u2) ≠ [] := by
      intro g he
      have := htail g
      rw [he] at this
      exact absurd this (by simp)
    by_cases hx : pyIsSpace x = true
    · rw [r4go, if_pos hx]
      by_cases hg : (f || wsEndsAtGt (x :: y :: u2)) = true
      · rw [if_pos hg]
        exact htail f
      · rw [if_neg hg]
        rw [getLast?_cons_ne x _ (hne false)]
        exact htail false
    · rw [r4go, if_neg hx]
      rw [getLast?_cons_ne x _ (hne (x = '<'))]
      exact htail (x = '<')

/-- Stage 5 on a leading whitespace character. -/
theorem r5_cons_ws (c : Char) (rest : List Char) (h : pyIsSpace c = true) :
    r5 (c :: rest) = ' ' :: r5run rest := by
  rw [r5, if_pos h]

/-- Stage 5 on a leading non-whitespace character. -/
theorem r5_cons_nonws (c : Char) (rest : List Char) (h : pyIsSpace c = false) :
    r5 (c :: rest) = c :: r5 rest := by
  rw [r5, if_neg (by simp [h])]

/-- The stage 5 worker leaves a non-whitespace character in place. -/
theorem r5run_cons_nonws (c : Char) (rest : List Char)
    (h : pyIsSpace c = false) : r5run (c :: rest) = c :: r5 rest := by
  rw [r5run, if_neg (by simp [h])]

mutual

/-- Stage 5 is the identity on whitespace-free text. -/
theorem r5_wsFree (t : List Char) (h : wsFree t) : r5 t = t := by
  match t with
  | [] => rfl
  | c :: rest =>
    rw [r5_cons_nonws c rest (h c (by simp))]
    rw [r5_wsFree rest (fun d hd => h d (by simp [hd]))]

/-- The stage 5 worker is the identity on whitespace-free text. -/
theorem r5run_wsFree (t : List Char) (h : wsFree t) : r5run t = t := by
  match t with
  | [] => rfl
  | c :: rest =>
    rw [r5run_cons_nonws c rest (h c (by simp))]
    rw [r5_wsFree rest (fun d hd => h d (by simp [hd]))]

end

mutual

/-- Stage 5 distributes over an append when the left block ends in a
non-whitespace character and the right block is whitespace-free. -/
theorem r5_append (u t : List Char) (z : Char) (hz : u.getLast? = some z)
    (hwz : pyIsSpace z = false) (ht : wsFree t) : r5 (u ++ t) = r5 u ++ t := by
  match u with
  | [] => exact absurd hz (by simp)
  | [x] =>
    have hxz : x = z := by simpa using hz
    rw [List.singleton_append, r5_cons_nonws x t (by rw [hxz]; exact hwz)]
    rw [r5_wsFree t ht, r5_cons_nonws x [] (by rw [hxz]; exact hwz)]
    rfl
  | x :: y :: u2 =>
    have hz2 : (y :: u2).getLast? = some z := by
      rw [← hz]
      exact (List.getLast?_cons_cons ..).symm
    rw [show (x :: y :: u2) ++ t = x :: ((y :: u2) ++ t) from rfl]
    by_cases hx : pyIsSpace x = true
    · rw [r5_cons_ws x _ hx, r5_cons_ws x _ hx]
      rw [r5run_append (y :: u2) t z hz2 hwz ht]
      rfl
    · have hx2 : pyIsSpace x = false := by simpa using hx
      rw [r5_cons_nonws x _ hx2, r5_cons_nonws x _ hx2]
      rw [r5_append (y :: u2) t z hz2 hwz ht]
      rfl

/-- Worker version of `r5_append`. -/
theorem r5run_append (u t : List Char) (z : Char) (hz : u.getLast? = some z)
    (hwz : pyIsSpace z = false) (ht : wsFree t) :
    r5run (u ++ t) = r5run u ++ t := by
  match u with
  | [] => exact absurd hz (by simp)
  | [x] =>
    have hxz : x = z := by simpa using hz
    rw [List.singleton_append, r5run_cons_nonws x t (by rw [hxz]; exact hwz)]
    rw [r5_wsFree t ht, r5run_cons_nonws x [] (by rw [hxz]; exact hwz)]
    rfl
  | x :: y :: u2 =>
    have hz2 : (y :: u2).getLast? = some z := by
      rw [← hz]
      exact (List.getLast?_cons_cons ..).symm
    rw [show (x :: y :: u2) ++ t = x :: ((y :: u2) ++ t) from rfl]
    by_cases hx : pyIsSpace x = true
    · rw [r5run, if_pos hx, r5run, if_pos hx]
      exact r5run_append (y :: u2) t z hz2 hwz ht
    · have hx2 : pyIsSpace x = false := by simpa using hx
      rw [r5run_cons_nonws x _ hx2, r5run_cons_nonws x _ hx2]
      rw [r5_append (y :: u2) t z hz2 hwz ht]
      rfl

end

mutual

/-- Stage 5 keeps a non-whitespace final character in final position. -/
theorem r5_getLast (u : List Char) (z : Char) (hz : u.getLast? = some z)
    (hwz : pyIsSpace z = false) : (r5 u).getLast? = some z := by
  match u with
  | [] => exact absurd hz (by simp)
  | [x] =>
    have hxz : x = z := by simpa using hz
    rw [r5_cons_nonws x [] (by rw [hxz]; exact hwz)]
    rw [hxz]
    rfl
  | x :: y :: u2 =>
    have hz2 : (y :: u2).getLast? = some z := by
      rw [← hz]
      exact (List.getLast?_cons_cons ..).symm
    by_cases hx : pyIsSpace x = true
    · rw [r5_cons_ws x _ hx]
      have htail := r5run_getLast (y :: u2) z hz2 hwz
      have hne : r5run (y :: u2) ≠ [] := by
        intro he
        rw [he] at htail
        exact absurd htail (by simp)
      rw [getLast?_cons_ne ' ' _ hne]
      exact htail
    · have hx2 : pyIsSpace x = false := by simpa using hx
      rw [r5_cons_nonws x _ hx2]
      have htail := r5_getLast (y :: u2) z hz2 hwz
      have hne : r5 (y :: u2) ≠ [] := by
        intro he
        rw [he] at htail
        exact absurd htail (by simp)
      rw [getLast?_cons_ne x _ hne]
      exact htail

/-- Worker version of `r5_getLast`. -/
theorem r5run_getLast (u : List Char) (z : Char) (hz : u.getLast? = some z)
    (hwz : pyIsSpace z = false) : (r5run u).getLast? = some z := by
  match u with
  | [] => exact absurd hz (by simp)
  | [x] =>
    have hxz : x = z := by simpa using hz
    rw [r5run_cons_nonws x [] (by rw [hxz]; exact hwz)]
    rw [hxz]
    rfl
  | x :: y :: u2 =>
    have hz2 : (y :: u2).getLast? = some z := by
      rw [← hz]
      exact (List.getLast?_cons_cons ..).symm
    by_cases hx : pyIsSpace x = true
    · rw [r5run, if_pos hx]
      exact r5run_getLast (y :: u2) z hz2 hwz
    · have hx2 : pyIsSpace x = false := by simpa using hx
      rw [r5run_cons_nonws x _ hx2]
      have htail := r5_getLast (y :: u2) z hz2 hwz
      have hne : r5 (y :: u2) ≠ [] := by
        intro he
        rw [he] at htail
        exact absurd htail (by simp)
      rw [getLast?_cons_ne x _ hne]
      exact htail

end

/-- `dropWhile` is the identity when the head fails the predicate. -/
theorem dropWhile_eq_self_of_head (l : List Char)
    (h : ∀ c, l.head? = some c → pyIsSpace c = false) :
    l.dropWhile pyIsSpace = l := by
  cases l with
  | nil => rfl
  | cons c rest => rw [List.dropWhile_cons, if_neg (by simp [h c rfl])]

/-- `str.strip()` is the identity when both ends are non-whitespace. -/
theorem pyStrip_eq_self (l : List Char)
    (hh : ∀ c, l.head? = some c → pyIsSpace c = false)
    (hl : ∀ c, l.getLast? = some c → pyIsSpace c = false) :
    pyStrip l = l := by
  rw [pyStrip, dropWhile_eq_self_of_head l hh]
  rw [dropWhile_eq_self_of_head l.reverse (by
    intro c hc
    rw [List.head?_reverse] at hc
    exact hl c hc)]
  exact List.reverse_reverse l

/-- `str.strip()` discards a leading whitespace character. -/
theorem pyStrip_cons_ws (c : Char) (l : List Char) (h : pyIsSpace c = true) :
    pyStrip (c :: l) = pyStrip l := by
  rw [pyStrip, pyStrip, List.dropWhile_cons, if_pos (by simp [h])]

/-- Unfolding equation for stage 2 on a non-empty list. -/
theorem r2_cons (c : Char) (rest : List Char) :
    r2 (c :: rest)
      = if (pyIsSpace c && starAfterWs rest) = true then r2 rest
        else c :: r2 rest := rfl

/-- Stage 3 keeps a non-comma head and recurses. -/
theorem r3_cons_nonComma (c : Char) (x : List Char) (h : c ≠ ',') :
    r3 (c :: x) = c :: r3 x := by
  cases x with
  | nil => rfl
  | cons d x2 =>
    rw [r3_cons_cons]
    rw [if_neg (by
      rw [Bool.and_eq_true]
      rintro ⟨h1, h2⟩
      exact h (by simpa using h1))]

/-- Stage 3 keeps the head character in place. -/
theorem r3_cons_head (c : Char) (x : List Char) : ∃ y, r3 (c :: x) = c :: y := by
  cases x with
  | nil => exact ⟨[], rfl⟩
  | cons d x2 =>
    rw [r3_cons_cons]
    by_cases hc : (c = ',' && !pyIsSpace d) = true
    · exact ⟨' ' :: r3 (d :: x2), by rw [if_pos hc]⟩
    · exact ⟨r3 (d :: x2), by rw [if_neg hc]⟩

/-- Stage 3 keeps the final character in final position. -/
theorem r3_getLast (l : List Char) (h : l ≠ []) :
    (r3 l).getLast? = l.getLast? := by
  match l with
  | [x] => rfl
  | x :: y :: l2 =>
    have ih := r3_getLast (y :: l2) (by simp)
    have hne : r3 (y :: l2) ≠ [] := by
      obtain ⟨w, hw2⟩ := r3_cons_head y l2
      rw [hw2]
      simp
    rw [List.getLast?_cons_cons, ← ih]
    rw [r3_cons_cons]
    by_cases hc : (x = ',' && !pyIsSpace y) = true
    · rw [if_pos hc]
      rw [getLast?_cons_ne x _ (by simp)]
      rw [getLast?_cons_ne ' ' _ hne]
    · rw [if_neg hc]
      rw [getLast?_cons_ne x _ hne]

/-- Skipping whitespace passes a whitespace head. -/
theorem wsEndsAtGt_cons_ws (c : Char) (l : List Char) (h : pyIsSpace c = true) :
    wsEndsAtGt (c :: l) = wsEndsAtGt l := by
  rw [wsEndsAtGt, if_pos h]

/-- Skipping whitespace stops at a non-whitespace head. -/
theorem wsEndsAtGt_cons_nonws (c : Char) (l : List Char)
    (h : pyIsSpace c = false) : wsEndsAtGt (c :: l) = decide (c = '>') := by
  rw [wsEndsAtGt, if_neg (by simp [h])]

/-- The final character of a list is a member. -/
theorem getLast?_mem_chars (l : List Char) (z : Char)
    (h : l.getLast? = some z) : z ∈ l := by
  match l with
  | [] => exact absurd h (by simp)
  | [x] =>
    have : x = z := by simpa using h
    simp [this]
  | x :: y :: l2 =>
    rw [List.getLast?_cons_cons] at h
    exact List.mem_cons_of_mem x (getLast?_mem_chars (y :: l2) z h)

/-- The final character of a non-empty star block. -/
theorem getLast?_replicate_star (m : Nat) :
    (List.replicate (m + 1) '*').getLast? = some '*' := by
  induction m with
  | zero => rfl
  | succ k ih =>
    rw [List.replicate_succ, getLast?_cons_ne _ _ (by simp)]
    exact ih

/-- The normalizer on `" <base><stars-joined-by-spaces>"`: for a non-empty
whitespace-free base whose head is not `*`/`&`/`>` and whose last character
is not a comma, the result is the normalized base directly followed by the
stars, with no space in between. -/
theorem normalizeL_base_stars (c : Char) (b2 : List Char) (n : Nat)
    (hw : wsFree (c :: b2)) (hc1 : c ≠ '*') (hc2 : c ≠ '&') (hc3 : c ≠ '>')
    (hl : (c :: b2).getLast? ≠ some ',') :
    normalizeL (' ' :: ((c :: b2) ++ sjoinL n))
      = normalizeL (c :: b2) ++ List.replicate n '*' := by
  have hcns : pyIsSpace c = false := hw c (by simp)
  obtain ⟨z, hz⟩ : ∃ z, (c :: b2).getLast? = some z := by
    cases hgl : (c :: b2).getLast? with
    | some z => exact ⟨z, rfl⟩
    | none => exact absurd hgl (by simp)
  have hwz : pyIsSpace z = false := hw z (getLast?_mem_chars _ z hz)
  have hstars : wsFree (List.replicate n '*') := wsFree_replicate_star n
  have h1 : r1 (' ' :: ((c :: b2) ++ sjoinL n))
      = ' ' :: ((c :: b2) ++ sjoinL n) := by
    apply r1_eq_self
    intro d hd
    rcases List.mem_cons.mp hd with h | h
    · rw [h]; decide
    · rcases List.mem_append.mp h with h | h
      · exact wsFree_no_newline _ hw d h
      · rcases sjoinL_mem n d h with h | h <;> rw [h] <;> decide
  have h1R : r1 (c :: b2) = c :: b2 := r1_eq_self _ (wsFree_no_newline _ hw)
  have hsa : starAfterWs ((c :: b2) ++ sjoinL n) = false := by
    rw [List.cons_append]
    exact starAfterWs_head c _ hcns hc1 hc2
  have h2 : r2 (' ' :: ((c :: b2) ++ sjoinL n))
      = ' ' :: ((c :: b2) ++ List.replicate n '*') := by
    rw [r2_cons, if_neg (by rw [hsa]; simp)]
    rw [r2_append_wsFree _ _ hw, r2_sjoinL]
  have h2R : r2 (c :: b2) = c :: b2 := by
    simpa only [List.append_nil, show r2 [] = [] from rfl]
      using r2_append_wsFree (c :: b2) [] hw
  have h3 : r3 (' ' :: ((c :: b2) ++ List.replicate n '*'))
      = ' ' :: (r3 (c :: b2) ++ List.replicate n '*') := by
    rw [r3_cons_nonComma ' ' _ (by decide)]
    rw [r3_append (c :: b2) _ (by simp) hl]
    rw [r3_eq_self (List.replicate n '*') (fun d hd => by
      rw [List.eq_of_mem_replicate hd]; decide)]
  obtain ⟨y3, hy3⟩ := r3_cons_head c b2
  have h3last : (r3 (c :: b2)).getLast? = some z := by
    rw [r3_getLast (c :: b2) (by simp)]
    exact hz
  have h4 : r4go false (' ' :: (r3 (c :: b2) ++ List.replicate n '*'))
      = ' ' :: (r4go false (r3 (c :: b2)) ++ List.replicate n '*') := by
    rw [r4go_cons, if_pos (by decide)]
    have hgt : wsEndsAtGt (' ' :: (r3 (c :: b2) ++ List.replicate n '*'))
        = false := by
      rw [wsEndsAtGt_cons_ws _ _ (by decide)]
      rw [hy3, List.cons_append, wsEndsAtGt_cons_nonws _ _ hcns]
      simp [hc3]
    rw [if_neg (by rw [hgt]; simp)]
    rw [r4go_append (r3 (c :: b2)) _ z h3last hwz hstars false]
  have h4head : r4go false (r3 (c :: b2)) = c :: r4go (decide (c = '<')) y3 := by
    rw [hy3, r4go_cons, if_neg (by simp [hcns])]
  have h4last : (r4go false (r3 (c :: b2))).getLast? = some z :=
    r4go_getLast _ z h3last hwz false
  have h5 : r5 (' ' :: (r4go false (r3 (c :: b2)) ++ List.replicate n '*'))
      = ' ' :: (r5 (r4go false (r3 (c :: b2))) ++ List.replicate n '*') := by
    rw [r5_cons_ws _ _ (by decide)]
    rw [h4head, List.cons_append, r5run_cons_nonws c _ hcns]
    rw [show (r4go (decide (c = '<')) y3 ++ List.replicate n '*')
        = (r4go (decide (c = '<')) y3) ++ List.replicate n '*' from rfl]
    rw [r5_cons_nonws c _ hcns]
    cases hy3e : r4go (decide (c = '<')) y3 with
    | nil =>
      simp only [List.nil_append]
      rw [r5_wsFree _ hstars, show r5 ([] : List Char) = [] from rfl]
      rfl
    | cons w ws =>
      have hlast2 : (w :: ws).getLast? = some z := by
        rw [← hy3e]
        have h9 := h4last
        rw [h4head, getLast?_cons_ne c _ (by rw [hy3e]; simp)] at h9
        exact h9
      rw [r5_append (w :: ws) _ z hlast2 hwz hstars]
      rfl
  have h5head : ∃ v, r5 (r4go false (r3 (c :: b2))) = c :: v := by
    rw [h4head, r5_cons_nonws c _ hcns]
    exact ⟨_, rfl⟩
  have h5last : (r5 (r4go false (r3 (c :: b2)))).getLast? = some z :=
    r5_getLast _ z h4last hwz
  have h6 : pyStrip (' ' :: (r5 (r4go false (r3 (c :: b2)))
      ++ List.replicate n '*'))
      = r5 (r4go false (r3 (c :: b2))) ++ List.replicate n '*' := by
    rw [pyStrip_cons_ws _ _ (by decide)]
    apply pyStrip_eq_self
    · intro d hd
      obtain ⟨v, hv⟩ := h5head
      rw [hv, List.cons_append] at hd
      simp only [List.head?_cons, Option.some.injEq] at hd
      rw [← hd]
      exact hcns
    · intro d hd
      cases n with
      | zero =>
        simp only [List.replicate, List.append_nil] at hd
        rw [h5last] at hd
        have hzd : z = d := by simpa using hd
        rw [← hzd]
        exact hwz
      | succ m =>
        rw [List.getLast?_append_of_ne_nil _ (by simp)] at hd
        rw [getLast?_replicate_star m] at hd
        have hzd : '*' = d := by simpa using hd
        rw [← hzd]
        decide
  have hR : normalizeL (c :: b2) = r5 (r4go false (r3 (c :: b2))) := by
    rw [normalizeL, r4, h1R, h2R]
    apply pyStrip_eq_self
    · intro d hd
      obtain ⟨v, hv⟩ := h5head
      rw [hv] at hd
      simp only [List.head?_cons, Option.some.injEq] at hd
      rw [← hd]
      exact hcns
    · intro d hd
      rw [h5last] at hd
      have hzd : z = d := by simpa using hd
      rw [← hzd]
      exact hwz
  rw [normalizeL, r4, h1, h2, h3, h4, h5, h6, hR]

/-- The function declarator `p()` of the pointer-chain family. -/
def c4FnDecl : Node :=
  .mk "function_declarator" "p()"
    (nl [(some "declarator", .mk "identifier" "p" .nil),
         (some "parameters", .mk "parameter_list" "()"
           (nl [(none, .mk "(" "(" .nil), (none, .mk ")" ")" .nil)]))])

/-- `n` nested pointer declarators around the function declarator. -/
def ptrWrap : Nat → Node
  | 0 => c4FnDecl
  | n + 1 => .mk "pointer_declarator" "*"
      (nl [(none, .mk "*" "*" .nil), (some "declarator", ptrWrap n)])

/-- The ancestor chain of the function declarator inside `ptrWrap n`,
nearest first (innermost wrapper first). -/
def ptrChain : Nat → List Node
  | 0 => []
  | n + 1 => ptrChain n ++ [ptrWrap (n + 1)]

/-- A function definition whose declared type text is `base` and whose
declarator is the base declarator wrapped in `n` pointer declarators:
`base*...* p(){}`. -/
def ptrFn (base : String) (n : Nat) : Node :=
  .mk "function_definition" base
    (nl [(some "type", .mk "type_identifier" base .nil),
         (some "declarator", ptrWrap n),
         (some "body", .mk "compound_statement" "" .nil)])

/-- The declarator search walks the whole pointer spine. -/
theorem ptrWrap_firstMatch (n : Nat) (acc : List Node) :
    Node.firstMatch (fun m => m.kind = "function_declarator") (ptrWrap n) acc
      = some (c4FnDecl, ptrChain n ++ acc) := by
  induction n generalizing acc with
  | zero => rfl
  | succ m ih =>
    have step : Node.firstMatch (fun m => m.kind = "function_declarator")
        (ptrWrap (m + 1)) acc
        = match Node.firstMatch (fun m => m.kind = "function_declarator")
            (ptrWrap m) (ptrWrap (m + 1) :: acc) with
          | some r => some r
          | none => none := rfl
    rw [step, ih (ptrWrap (m + 1) :: acc)]
    simp only []
    rw [ptrChain, List.append_assoc]
    rfl

/-- The declarator query on the pointer-chain function definition. -/
theorem ptrFn_queryFirst (base : String) (n : Nat) :
    Node.queryFirst (fun m => m.kind = "function_declarator") (ptrFn base n)
      = some (c4FnDecl, ptrChain n) := by
  have step : Node.queryFirst (fun m => m.kind = "function_declarator")
      (ptrFn base n)
      = match Node.firstMatch (fun m => m.kind = "function_declarator")
          (ptrWrap n) [] with
        | some r => some r
        | none => none := rfl
  rw [step, ptrWrap_firstMatch n []]
  simp only []
  rw [List.append_nil]

/-- Each pointer wrapper contributes exactly one star. -/
theorem modifierTokens_ptrWrap (m : Nat) :
    modifierTokens (ptrWrap (m + 1)) = ["*"] := by
  cases m with
  | zero => rfl
  | succ k => rfl

/-- Every chain element is a pointer wrapper. -/
theorem ptrChain_mem (n : Nat) (x : Node) (h : x ∈ ptrChain n) :
    ∃ i, x = ptrWrap (i + 1) := by
  induction n with
  | zero => exact absurd h (by simp [ptrChain])
  | succ m ih =>
    rw [ptrChain] at h
    rcases List.mem_append.mp h with h | h
    · exact ih h
    · exact ⟨m, by simpa using h⟩

/-- The chain has one wrapper per nesting level. -/
theorem ptrChain_length (n : Nat) : (ptrChain n).length = n := by
  induction n with
  | zero => rfl
  | succ m ih =>
    rw [ptrChain, List.length_append, ih]
    rfl

/-- A `flatMap` whose every element contributes one fixed token. -/
theorem flatMap_const_singleton (f : Node → List String) (a : String)
    (l : List Node) (h : ∀ x ∈ l, f x = [a]) :
    l.flatMap f = List.replicate l.length a := by
  induction l with
  | nil => rfl
  | cons x rest ih =>
    rw [List.flatMap_cons, h x (by simp), ih (fun y hy => h y (by simp [hy]))]
    rfl

/-- The reversed chain contributes exactly `n` stars. -/
theorem flatMap_ptrChain (n : Nat) :
    ((ptrChain n).reverse).flatMap modifierTokens = List.replicate n "*" := by
  rw [flatMap_const_singleton modifierTokens "*" (ptrChain n).reverse ?h]
  · rw [List.length_reverse, ptrChain_length]
  · intro x hx
    obtain ⟨i, hi⟩ := ptrChain_mem n x (List.mem_reverse.mp hx)
    rw [hi, modifierTokens_ptrWrap]

/-- The pointer-chain function definition has no qualifier children. -/
theorem ptrFn_qualifiers (base : String) (n : Nat) :
    (ptrFn base n).children.filter (fun x => x.kind = "type_qualifier") = [] := by
  cases n with
  | zero => rfl
  | succ m => rfl

/-- `_parse_type` on the pointer-chain function definition. -/
theorem parseType_ptrFn (base : String) (n : Nat) :
    parseType (ptrFn base n)
      = .ok (normalizeString (String.intercalate " " ([] : List String)
          ++ " " ++ pyStripStr base
          ++ String.intercalate " " (List.replicate n "*"))) := by
  unfold parseType
  rw [if_pos (by rfl)]
  rw [show (ptrFn base n).childByFieldName "type"
      = some (.mk "type_identifier" base .nil) from rfl]
  simp only []
  rw [show (if (ptrFn base n).kind = "function_definition"
      then "function_declarator" else "identifier") = "function_declarator"
    from by rw [if_pos (by rfl)]]
  rw [ptrFn_queryFirst base n]
  simp only []
  rw [flatMap_ptrChain n]
  rw [show (((ptrFn base n).children.filter
      (fun x => x.kind = "type_qualifier")).map (fun x => pyStripStr x.text))
    = [] from by rw [ptrFn_qualifiers]; rfl]
  rfl

/-- The separating segment of a positive star join: `" *"` repeated. -/
def spaceStars : Nat → List Char
  | 0 => []
  | k + 1 => ' ' :: '*' :: spaceStars k

/-- The tail-recursive worker of `String.intercalate` on star lists. -/
theorem intercalate_go_star (acc : String) (k : Nat) :
    (String.intercalate.go acc " " (List.replicate k "*")).data
      = acc.data ++ spaceStars k := by
  induction k generalizing acc with
  | zero => simp [String.intercalate.go, spaceStars]
  | succ m ih =>
    rw [List.replicate_succ, String.intercalate.go, ih]
    rw [String.data_append, String.data_append]
    simp [spaceStars]

/-- Positive star joins expand as a star followed by `" *"` segments. -/
theorem sjoinL_succ_spaceStars (k : Nat) : sjoinL (k + 1) = '*' :: spaceStars k := by
  induction k with
  | zero => rfl
  | succ m ih =>
    rw [sjoinL, ih]
    rfl

/-- The characters of the joined star-modifier string. -/
theorem intercalate_star_data (n : Nat) :
    (String.intercalate " " (List.replicate n "*")).data = sjoinL n := by
  cases n with
  | zero => rfl
  | succ m =>
    rw [List.replicate_succ, String.intercalate, intercalate_go_star, sjoinL_succ_spaceStars]
    rfl

/-- C4: for any pointer nesting depth `n`, the canonical return type
produced by the Type Reconstructor followed by the Text Normalizer is the
normalized base type directly followed by the `n` star markers with zero
intervening spaces, although the collected modifiers are joined with
single spaces before normalization.  The base type text is assumed
whitespace-free, not starting with `*`/`&`/`>` and not ending in a comma,
as any declared type text is. -/
theorem claim4_pointer_spacing :
    (∀ (n : Nat) (c : Char) (b2 : List Char),
      wsFree (c :: b2) → c ≠ '*' → c ≠ '&' → c ≠ '>' →
      (c :: b2).getLast? ≠ some ',' →
      parseType (ptrFn (String.mk (c :: b2)) n)
        = .ok (normalizeString (String.mk (c :: b2))
            ++ String.mk (List.replicate n '*'))) ∧
    (parseType (ptrFn "int" 3) = .ok "int***") ∧
    (parseType (ptrFn "unsigned long" 2) = .ok "unsigned long**") := by
  refine ⟨?_, by decide, by decide⟩
  intro n c b2 hw hc1 hc2 hc3 hl
  have hstrip : pyStripStr (String.mk (c :: b2)) = String.mk (c :: b2) := by
    rw [pyStripStr]
    congr 1
    apply pyStrip_eq_self
    · intro d hd
      have hdc : c = d := by simpa using hd
      rw [← hdc]
      exact hw c (by simp)
    · intro d hd
      exact hw d (getLast?_mem_chars _ d hd)
  rw [parseType_ptrFn, hstrip]
  congr 1
  apply String.ext
  rw [String.data_append]
  show normalizeL ((String.intercalate " " ([] : List String) ++ " "
      ++ String.mk (c :: b2)
      ++ String.intercalate " " (List.replicate n "*")).data)
    = normalizeL (c :: b2) ++ List.replicate n '*'
  rw [show ((String.intercalate " " ([] : List String) ++ " "
      ++ String.mk (c :: b2)
      ++ String.intercalate " " (List.replicate n "*")).data)
      = ' ' :: ((c :: b2) ++ sjoinL n) from by
    rw [String.data_append, String.data_append, String.data_append,
      intercalate_star_data]
    rfl]
  exact normalizeL_base_stars c b2 n hw hc1 hc2 hc3 hl

/-- Witness for C4: its universal part at base type `int` and depth 3. -/
theorem claim4_witness :
    parseType (ptrFn (String.mk ('i' :: ['n', 't'])) 3)
      = .ok (normalizeString (String.mk ('i' :: ['n', 't']))
          ++ String.mk (List.replicate 3 '*')) :=
  claim4_pointer_spacing.1 3 'i' ['n', 't']
    (by intro x hx; fin_cases hx <;> decide) (by decide)
    (by decide) (by decide) (by decide)

/-! ## Claim C5: idempotence of the Text Normalizer

The proof characterizes the image of `normalizeL` by a local scanner `q5`
(plus non-whitespace ends) and shows (Part A) every output satisfies it and
(Part B) `normalizeL` is the identity on strings satisfying it. -/

/-- Is the character one of the pointer/reference markers `*`/`&`? -/
def isStarAmp (d : Char) : Bool := d = '*' || d = '&'

/-- Local conditions of a normalized string at one character, given the
previous character (`p`) and the next (`next`): whitespace is a plain
space; no two adjacent whitespace characters; no whitespace after `<` or
before `>`; a comma is followed by a space or `>` (or the end); a space
directly before `*`/`&` is preceded by a comma. -/
def q5step (p : Option Char) (c : Char) (next : Option Char) : Bool :=
  (!pyIsSpace c || c = ' ')
  && (match next with
      | some d => (!(pyIsSpace c && isStarAmp d) || p = some ',')
          && (!(d = '>') || !pyIsSpace c)
      | none => true)
  && (match p with
      | some x =>
          !(pyIsSpace x && pyIsSpace c)
          && (!(x = ',') || (c = ' ' || c = '>'))
          && (!(x = '<') || !pyIsSpace c)
      | none => true)

/-- Scan a string with `q5step`, threading the previous character. -/
def q5 (p : Option Char) : List Char → Bool
  | [] => true
  | c :: rest => q5step p c rest.head? && q5 (some c) rest

/-- Does the string avoid starting with whitespace? -/
def headOK : List Char → Bool
  | [] => true
  | c :: _ => !pyIsSpace c

/-- The normal form: locally normalized with non-whitespace ends. -/
def isNF (l : List Char) : Bool := q5 none l && headOK l && headOK l.reverse

/-- Insert the space that stage 3 adds inside each `",>"` pair (stage 4
removes it again). -/
def insGt : List Char → List Char
  | [] => []
  | [c] => [c]
  | c :: d :: rest =>
    if c = ',' && d = '>' then c :: ' ' :: insGt (d :: rest)
    else c :: insGt (d :: rest)

/-- The flag stage 4 starts with, given the previous character. -/
def pLt : Option Char → Bool
  | none => false
  | some x => x = '<'

/-- Splitting a `q5` scan at its first character. -/
theorem q5_tail (p : Option Char) (c : Char) (rest : List Char)
    (h : q5 p (c :: rest) = true) :
    q5step p c rest.head? = true ∧ q5 (some c) rest = true := by
  rw [q5, Bool.and_eq_true] at h
  exact h

/-- Whitespace in a locally normalized string is a plain space. -/
theorem q5step_space (p : Option Char) (c : Char) (next : Option Char)
    (h : q5step p c next = true) (hc : pyIsSpace c = true) : c = ' ' := by
  simp only [q5step.eq_def, Bool.and_eq_true] at h
  have h1 := h.1.1
  rw [hc] at h1
  simpa using h1

/-- After a comma comes a space, a `>`, or the end. -/
theorem q5step_comma (c : Char) (next : Option Char)
    (h : q5step (some ',') c next = true) : c = ' ' ∨ c = '>' := by
  simp only [q5step.eq_def, Bool.and_eq_true] at h
  have h1 := h.2.1.2
  simpa using h1

/-- No two adjacent whitespace characters. -/
theorem q5step_noAdj (x c : Char) (next : Option Char)
    (h : q5step (some x) c next = true) (hx : pyIsSpace x = true) :
    pyIsSpace c = false := by
  simp only [q5step.eq_def, Bool.and_eq_true] at h
  have h1 := h.2.1.1
  rw [hx] at h1
  simpa using h1

/-- A space directly before `*`/`&` is preceded by a comma. -/
theorem q5step_star (p : Option Char) (c d : Char)
    (h : q5step p c (some d) = true) (hc : pyIsSpace c = true)
    (hd : isStarAmp d = true) : p = some ',' := by
  simp only [q5step.eq_def, Bool.and_eq_true] at h
  have h1 := h.1.2.1
  rw [hc, hd] at h1
  simpa using h1

/-- No whitespace directly before `>`. -/
theorem q5step_gt (p : Option Char) (c : Char)
    (h : q5step p c (some '>') = true) : pyIsSpace c = false := by
  simp only [q5step.eq_def, Bool.and_eq_true] at h
  have h1 := h.1.2.2
  simpa using h1

/-- No whitespace directly after `<`. -/
theorem q5step_lt (c : Char) (next : Option Char)
    (h : q5step (some '<') c next = true) : pyIsSpace c = false := by
  simp only [q5step.eq_def, Bool.and_eq_true] at h
  have h1 := h.2.2
  simpa using h1

/-- Whitespace anywhere in a `q5`-normalized string is a plain space. -/
theorem q5_space (p : Option Char) (l : List Char) (h : q5 p l = true) :
    ∀ c ∈ l, pyIsSpace c = true → c = ' ' := by
  induction l generalizing p with
  | nil => intro c hc; exact absurd hc (by simp)
  | cons d rest ih =>
    obtain ⟨hstep, htail⟩ := q5_tail p d rest h
    intro c hc hw
    rcases List.mem_cons.mp hc with h1 | h1
    · rw [h1] at hw ⊢
      exact q5step_space p d rest.head? hstep hw
    · exact ih (some d) htail c h1 hw

/-- `insGt` on a singleton. -/
theorem insGt_singleton (c : Char) : insGt [c] = [c] := rfl

/-- Unfolding equation for `insGt` on two or more characters. -/
theorem insGt_cons_cons (c d : Char) (rest : List Char) :
    insGt (c :: d :: rest)
      = if (c = ',' && d = '>') = true then c :: ' ' :: insGt (d :: rest)
        else c :: insGt (d :: rest) := rfl

/-- `insGt` leaves a head alone unless it starts a `",>"` pair. -/
theorem insGt_cons_ne (c : Char) (rest : List Char)
    (h : ¬(c = ',' ∧ rest.head? = some '>')) :
    insGt (c :: rest) = c :: insGt rest := by
  cases rest with
  | nil => rfl
  | cons d rest2 =>
    rw [insGt_cons_cons, if_neg (by
      rw [Bool.and_eq_true]
      rintro ⟨h1, h2⟩
      exact h ⟨by simpa using h1, by simp [show d = '>' from by simpa using h2]⟩)]

/-- `insGt` keeps the head character in place. -/
theorem insGt_cons_ex (d : Char) (rest : List Char) :
    ∃ y, insGt (d :: rest) = d :: y := by
  cases rest with
  | nil => exact ⟨[], rfl⟩
  | cons e rest2 =>
    rw [insGt_cons_cons]
    by_cases hc : (d = ',' && e = '>') = true
    · rw [if_pos hc]; exact ⟨_, rfl⟩
    · rw [if_neg hc]; exact ⟨_, rfl⟩

/-- A whitespace character is not a comma. -/
theorem ws_ne_comma (c : Char) (h : pyIsSpace c = true) : c ≠ ',' := by
  rintro rfl
  exact absurd h (by decide)

/-- Stages 2 and 3 compose, on a `q5`-normalized string whose virtual
previous character is not a comma, to exactly the reinsertion of the
space inside each `",>"` pair. -/
theorem r32_aux (n : Nat) : ∀ (l : List Char) (p : Option Char),
    l.length ≤ n → q5 p l = true → p ≠ some ',' →
    r3 (r2 l) = insGt l := by
  induction n with
  | zero =>
    intro l p hlen _ _
    cases l with
    | nil => rfl
    | cons c rest => simp at hlen
  | succ n ih =>
    intro l p hlen hq hp
    cases l with
    | nil => rfl
    | cons c rest =>
    obtain ⟨hstep, htail⟩ := q5_tail p c rest hq
    by_cases hws : pyIsSpace c = true
    · -- whitespace head: it is a kept space (no `*`/`&` follows)
      have hc : c = ' ' := q5step_space p c rest.head? hstep hws
      have hsaw : starAfterWs rest = false := by
        cases rest with
        | nil => rfl
        | cons d rest2 =>
          obtain ⟨hstep2, _⟩ := q5_tail (some c) d rest2 htail
          have hd : pyIsSpace d = false := q5step_noAdj c d rest2.head? hstep2 hws
          have hstar : isStarAmp d = false := by
            by_cases hx : isStarAmp d = true
            · exact absurd (q5step_star p c d hstep hws hx) hp
            · simpa using hx
          rw [starAfterWs, if_neg (by simp [hd])]
          exact hstar
      rw [insGt_cons_ne c rest (by rintro ⟨h1, _⟩; exact ws_ne_comma c hws h1)]
      rw [r2_cons, if_neg (by simp [hsaw])]
      rw [r3_cons_nonComma c _ (ws_ne_comma c hws)]
      rw [ih rest (some c) (by simpa using Nat.le_of_succ_le_succ hlen) htail
        (by intro hx; exact ws_ne_comma c hws (by injection hx))]
    · have hws' : pyIsSpace c = false := by simpa using hws
      by_cases hcm : c = ','
      · subst hcm
        cases rest with
        | nil => rfl
        | cons d rest2 =>
          obtain ⟨hstep2, htail2⟩ := q5_tail (some ',') d rest2 htail
          rcases q5step_comma d rest2.head? hstep2 with hd | hd
          · subst hd
            cases rest2 with
            | nil => decide
            | cons e rest3 =>
              obtain ⟨hstep3, htail3⟩ := q5_tail (some ' ') e rest3 htail2
              have he : pyIsSpace e = false :=
                q5step_noAdj ' ' e rest3.head? hstep3 (by decide)
              have hlen2 : (e :: rest3).length ≤ n := by
                simp at hlen ⊢; omega
              have hrec : r3 (r2 (e :: rest3)) = insGt (e :: rest3) :=
                ih (e :: rest3) (some ' ') hlen2 htail2 (by simp)
              have h3 : r2 (e :: rest3) = e :: r2 rest3 := by
                rw [r2_cons, if_neg (by simp [he])]
              by_cases hse : isStarAmp e = true
              · -- the comma space is deleted by stage 2, reinserted by stage 3
                have h2 : r2 (',' :: ' ' :: e :: rest3) = ',' :: r2 (e :: rest3) := by
                  rw [r2_cons, if_neg (by
                    rw [show pyIsSpace ',' = false from by decide]; simp)]
                  rw [r2_cons, if_pos (by
                    rw [starAfterWs, if_neg (by simp [he]), Bool.and_eq_true]
                    exact ⟨by decide, by simpa [isStarAmp] using hse⟩)]
                rw [h2, h3, r3_cons_cons, if_pos (by simp [he]), ← h3, hrec]
                rw [insGt_cons_cons, if_neg (by decide)]
                rw [insGt_cons_ne ' ' _ (by rintro ⟨h1, _⟩; exact absurd h1 (by decide))]
              · have hse' : isStarAmp e = false := by simpa using hse
                have h2 : r2 (',' :: ' ' :: e :: rest3)
                    = ',' :: ' ' :: r2 (e :: rest3) := by
                  rw [r2_cons, if_neg (by
                    rw [show pyIsSpace ',' = false from by decide]; simp)]
                  rw [r2_cons, if_neg (by
                    rw [starAfterWs, if_neg (by simp [he])]
                    simp [show (e = '*' || e = '&') = false from by
                      simpa [isStarAmp] using hse'])]
                rw [h2, r3_cons_cons, if_neg (by decide)]
                rw [r3_cons_nonComma ' ' _ (by decide), hrec]
                rw [insGt_cons_cons, if_neg (by decide)]
                rw [insGt_cons_ne ' ' _ (by rintro ⟨h1, _⟩; exact absurd h1 (by decide))]
          · subst hd
            have hlen2 : rest2.length ≤ n := by simp at hlen ⊢; omega
            have hrec : r3 (r2 rest2) = insGt rest2 :=
              ih rest2 (some '>') (by omega) htail2 (by simp)
            have h2 : r2 (',' :: '>' :: rest2) = ',' :: '>' :: r2 rest2 := by
              rw [r2_cons, if_neg (by
                rw [show pyIsSpace ',' = false from by decide]; simp)]
              rw [r2_cons, if_neg (by
                rw [show pyIsSpace '>' = false from by decide]; simp)]
            rw [h2, r3_cons_cons, if_pos (by decide)]
            rw [r3_cons_nonComma '>' _ (by decide), hrec]
            rw [insGt_cons_cons, if_pos (by decide)]
            rw [insGt_cons_ne '>' _ (by rintro ⟨h1, _⟩; exact absurd h1 (by decide))]
      · rw [insGt_cons_ne c rest (by rintro ⟨h1, _⟩; exact hcm h1)]
        rw [r2_cons, if_neg (by simp [hws'])]
        rw [r3_cons_nonComma c _ hcm]
        rw [ih rest (some c) (by simpa using Nat.le_of_succ_le_succ hlen) htail
          (by intro hx; exact hcm (by injection hx))]

/-- Stage 4 undoes the reinsertion: on a `q5`-normalized string (with
previous character `p`, giving the starting flag), it deletes exactly the
spaces `insGt` put inside `",>"` pairs. -/
theorem r4_insGt_aux (n : Nat) : ∀ (l : List Char) (p : Option Char),
    l.length ≤ n → q5 p l = true → r4go (pLt p) (insGt l) = l := by
  induction n with
  | zero =>
    intro l p hlen _
    cases l with
    | nil => rfl
    | cons c rest => simp at hlen
  | succ n ih =>
    intro l p hlen hq
    cases l with
    | nil => rfl
    | cons c rest =>
    obtain ⟨hstep, htail⟩ := q5_tail p c rest hq
    by_cases hcm : c = ',' ∧ rest.head? = some '>'
    · obtain ⟨hc1, hc2⟩ := hcm
      subst hc1
      cases rest with
      | nil => simp at hc2
      | cons d rest2 =>
        have hd : d = '>' := by simpa using hc2
        subst hd
        obtain ⟨hstep2, htail2⟩ := q5_tail (some ',') '>' rest2 htail
        rw [insGt_cons_cons, if_pos (by decide)]
        rw [insGt_cons_ne '>' _ (by rintro ⟨h1, _⟩; exact absurd h1 (by decide))]
        rw [r4go_cons, if_neg (by decide)]
        rw [show (decide (',' = '<')) = false from by decide]
        rw [r4go_cons, if_pos (by decide)]
        rw [if_pos (by
          rw [wsEndsAtGt_cons_ws ' ' _ (by decide)]
          rw [wsEndsAtGt_cons_nonws '>' _ (by decide)]
          simp)]
        rw [r4go_cons, if_neg (by decide)]
        rw [show (decide ('>' = '<')) = false from by decide]
        have hrec := ih rest2 (some '>') (by simp at hlen ⊢; omega) htail2
        rw [show pLt (some '>') = false from by decide] at hrec
        rw [hrec]
    · rw [insGt_cons_ne c rest hcm]
      by_cases hws : pyIsSpace c = true
      · have hc : c = ' ' := q5step_space p c rest.head? hstep hws
        subst hc
        have hflag : pLt p = false := by
          cases p with
          | none => rfl
          | some x =>
            by_cases hx : x = '<'
            · subst hx
              exact absurd (q5step_lt ' ' rest.head? hstep) (by decide)
            · simp [pLt, hx]
        rw [hflag]
        rw [r4go_cons, if_pos (by decide)]
        have hwe : wsEndsAtGt (' ' :: insGt rest) = false := by
          cases rest with
          | nil => decide
          | cons d rest2 =>
            obtain ⟨hstep2, _⟩ := q5_tail (some ' ') d rest2 htail
            have hd : pyIsSpace d = false :=
              q5step_noAdj ' ' d rest2.head? hstep2 (by decide)
            have hdgt : d ≠ '>' := by
              rintro rfl
              exact absurd (q5step_gt p ' ' hstep) (by decide)
            obtain ⟨y, hy⟩ := insGt_cons_ex d rest2
            rw [hy, wsEndsAtGt_cons_ws ' ' _ (by decide)]
            rw [wsEndsAtGt_cons_nonws d _ hd]
            simp [hdgt]
        rw [if_neg (by simp [hwe])]
        have hrec := ih rest (some ' ')
          (by simpa using Nat.le_of_succ_le_succ hlen) htail
        rw [show pLt (some ' ') = false from by decide] at hrec
        rw [hrec]
      · have hws' : pyIsSpace c = false := by simpa using hws
        rw [r4go_cons, if_neg (by simp [hws'])]
        have hrec := ih rest (some c)
          (by simpa using Nat.le_of_succ_le_succ hlen) htail
        exact congrArg (List.cons c) hrec

/-- Stage 5 is the identity on a `q5`-normalized string (whose whitespace
is isolated single spaces), and so is its worker when the head is
non-whitespace. -/
theorem r5_id_aux (n : Nat) : ∀ (l : List Char) (p : Option Char),
    l.length ≤ n → q5 p l = true →
    r5 l = l ∧ (headOK l = true → r5run l = l) := by
  induction n with
  | zero =>
    intro l p hlen _
    cases l with
    | nil => exact ⟨rfl, fun _ => rfl⟩
    | cons c rest => simp at hlen
  | succ n ih =>
    intro l p hlen hq
    cases l with
    | nil => exact ⟨rfl, fun _ => rfl⟩
    | cons c rest =>
    obtain ⟨hstep, htail⟩ := q5_tail p c rest hq
    have hlen2 : rest.length ≤ n := by simpa using Nat.le_of_succ_le_succ hlen
    by_cases hws : pyIsSpace c = true
    · have hc : c = ' ' := q5step_space p c rest.head? hstep hws
      subst hc
      constructor
      · rw [r5_cons_ws ' ' rest (by decide)]
        cases rest with
        | nil => rfl
        | cons d rest2 =>
          obtain ⟨hstep2, _⟩ := q5_tail (some ' ') d rest2 htail
          have hd : pyIsSpace d = false :=
            q5step_noAdj ' ' d rest2.head? hstep2 (by decide)
          have hhead : headOK (d :: rest2) = true := by
            rw [headOK]; simp [hd]
          rw [(ih (d :: rest2) (some ' ') hlen2 htail).2 hhead]
      · intro hh
        rw [headOK] at hh
        simp at hh
        exact absurd hh (by decide)
    · have hws' : pyIsSpace c = false := by simpa using hws
      have htailid := (ih rest (some c) hlen2 htail).1
      refine ⟨?_, fun _ => ?_⟩
      · rw [r5_cons_nonws c rest hws', htailid]
      · rw [r5run_cons_nonws c rest hws', htailid]

/-- A list passing `headOK` has a non-whitespace head. -/
theorem headOK_some (l : List Char) (c : Char) (h : headOK l = true)
    (hc : l.head? = some c) : pyIsSpace c = false := by
  cases l with
  | nil => simp at hc
  | cons d rest =>
    have : d = c := by simpa using hc
    subst this
    rw [headOK] at h
    simpa using h

/-- Part B of the idempotence proof: the cleanup pipeline is the identity
on every string in normal form. -/
theorem normalizeL_eq_self_of_isNF (l : List Char) (h : isNF l = true) :
    normalizeL l = l := by
  rw [isNF, Bool.and_eq_true, Bool.and_eq_true] at h
  obtain ⟨⟨hq, hh⟩, hr⟩ := h
  have h1 : r1 l = l := r1_eq_self l (by
    intro c hc he
    have hw : pyIsSpace c = true := by rw [he]; decide
    have := q5_space none l hq c hc hw
    rw [he] at this
    exact absurd this (by decide))
  have h23 : r3 (r2 l) = insGt l :=
    r32_aux l.length l none le_rfl hq (by simp)
  have h4 : r4 (insGt l) = l := r4_insGt_aux l.length l none le_rfl hq
  have h5 : r5 l = l := (r5_id_aux l.length l none le_rfl hq).1
  have hstrip : pyStrip l = l := pyStrip_eq_self l
    (fun c hc => headOK_some l c hh hc)
    (fun c hc => headOK_some l.reverse c hr (by rw [List.head?_reverse]; exact hc))
  rw [normalizeL, h1, h23, h4, h5, hstrip]

/-- After stage 2 there is no whitespace directly before a `*`/`&`. -/
def q2 : List Char → Bool
  | [] => true
  | [_] => true
  | c :: d :: rest => !(pyIsSpace c && isStarAmp d) && q2 (d :: rest)

/-- Unfolding equation for `q2` on two or more characters. -/
theorem q2_cons_cons (c d : Char) (rest : List Char) :
    q2 (c :: d :: rest)
      = (!(pyIsSpace c && isStarAmp d) && q2 (d :: rest)) := rfl

/-- Build a `q2` certificate one character at a time. -/
theorem q2_cons (c : Char) (x : List Char)
    (h1 : ∀ d, x.head? = some d → (pyIsSpace c && isStarAmp d) = false)
    (h2 : q2 x = true) : q2 (c :: x) = true := by
  cases x with
  | nil => rfl
  | cons d y =>
    rw [q2_cons_cons, Bool.and_eq_true]
    exact ⟨by rw [h1 d rfl]; rfl, h2⟩

/-- A whitespace character is not a `*`/`&` marker. -/
theorem ws_not_star (c : Char) (h : pyIsSpace c = true) : isStarAmp c = false := by
  by_cases h1 : c = '*'
  · subst h1; exact absurd h (by decide)
  by_cases h2 : c = '&'
  · subst h2; exact absurd h (by decide)
  simp [isStarAmp, h1, h2]

/-- If the leading whitespace run does not end at `*`/`&`, stage 2 cannot
bring a `*`/`&` to the front. -/
theorem r2_head_noStar (l : List Char) (h : starAfterWs l = false) :
    ∀ d, (r2 l).head? = some d → isStarAmp d = false := by
  induction l with
  | nil => intro d hd; simp [r2] at hd
  | cons c rest ih =>
    intro d hd
    by_cases hws : pyIsSpace c = true
    · have hsaw : starAfterWs rest = false := by
        rw [starAfterWs, if_pos hws] at h; exact h
      rw [r2_cons, if_neg (by simp [hws, hsaw])] at hd
      have hcd : c = d := by simpa using hd
      subst hcd
      exact ws_not_star c hws
    · have hws' : pyIsSpace c = false := by simpa using hws
      rw [starAfterWs, if_neg (by simp [hws'])] at h
      rw [r2_cons, if_neg (by simp [hws'])] at hd
      have hcd : c = d := by simpa using hd
      subst hcd
      exact h

/-- Stage 2 establishes the `q2` invariant on every input. -/
theorem q2_r2 (l : List Char) : q2 (r2 l) = true := by
  induction l with
  | nil => rfl
  | cons c rest ih =>
    rw [r2_cons]
    by_cases hcond : (pyIsSpace c && starAfterWs rest) = true
    · rw [if_pos hcond]; exact ih
    · rw [if_neg hcond]
      apply q2_cons
      · intro d hd
        by_cases hws : pyIsSpace c = true
        · have hsaw : starAfterWs rest = false := by
            by_cases hs : starAfterWs rest = true
            · exact absurd (by rw [Bool.and_eq_true]; exact ⟨hws, hs⟩ :
                  (pyIsSpace c && starAfterWs rest) = true) hcond
            · simpa using hs
          rw [hws, r2_head_noStar rest hsaw d hd]
          rfl
        · rw [show pyIsSpace c = false from by simpa using hws]
          rfl
      · exact ih

/-- Apply a condition to the following character, if any. -/
def nextOK (f : Char → Bool) : Option Char → Bool
  | some d => f d
  | none => true

/-- Apply a condition to the previous character, if any. -/
def prevOK (f : Char → Bool) : Option Char → Bool
  | some x => f x
  | none => true

/-- Local conditions after stage 3: whitespace directly before `*`/`&` only
after a comma, and every comma followed by whitespace (or the end). -/
def q3step (p : Option Char) (c : Char) (next : Option Char) : Bool :=
  nextOK (fun d => !(pyIsSpace c && isStarAmp d) || p = some ',') next
  && (!(c = ',') || nextOK pyIsSpace next)

/-- Scan a string with `q3step`, threading the previous character. -/
def q3 (p : Option Char) : List Char → Bool
  | [] => true
  | c :: rest => q3step p c rest.head? && q3 (some c) rest

/-- Unfolding equation for the `q3` scan. -/
theorem q3_cons (p : Option Char) (c : Char) (rest : List Char) :
    q3 p (c :: rest) = (q3step p c rest.head? && q3 (some c) rest) := rfl

/-- Local conditions after stage 4: the `q3` conditions (with a comma now
allowed to precede a `>` directly), plus no whitespace after `<` or
before `>`. -/
def q4step (p : Option Char) (c : Char) (next : Option Char) : Bool :=
  nextOK (fun d => (!(pyIsSpace c && isStarAmp d) || p = some ',')
      && (!(d = '>') || !pyIsSpace c)) next
  && (!(c = ',') || nextOK (fun d => pyIsSpace d || d = '>') next)
  && prevOK (fun x => !(x = '<') || !pyIsSpace c) p

/-- Scan a string with `q4step`, threading the previous character. -/
def q4 (p : Option Char) : List Char → Bool
  | [] => true
  | c :: rest => q4step p c rest.head? && q4 (some c) rest

/-- Unfolding equation for the `q4` scan. -/
theorem q4_cons (p : Option Char) (c : Char) (rest : List Char) :
    q4 p (c :: rest) = (q4step p c rest.head? && q4 (some c) rest) := rfl

/-- A trailing character always satisfies `q3step`. -/
theorem q3step_none (p : Option Char) (c : Char) : q3step p c none = true := by
  simp [q3step, nextOK]

/-- Stage 3 keeps the head of the string in place (head? form). -/
theorem r3_head? (x : List Char) : (r3 x).head? = x.head? := by
  cases x with
  | nil => rfl
  | cons c y =>
    obtain ⟨z, hz⟩ := r3_cons_head c y
    rw [hz]
    rfl

/-- Stage 3 establishes the `q3` invariant on any `q2` input, whatever the
virtual previous character. -/
theorem q3_r3 (n : Nat) : ∀ (l : List Char) (p : Option Char),
    l.length ≤ n → q2 l = true → q3 p (r3 l) = true := by
  induction n with
  | zero =>
    intro l p hlen _
    cases l with
    | nil => rfl
    | cons c rest => simp at hlen
  | succ n ih =>
    intro l p hlen h2
    cases l with
    | nil => rfl
    | cons c rest =>
    cases rest with
    | nil =>
      rw [show r3 [c] = [c] from rfl, q3_cons,
        show (([] : List Char)).head? = none from rfl, q3step_none]
      rfl
    | cons d rest2 =>
      rw [q2_cons_cons, Bool.and_eq_true] at h2
      obtain ⟨hpair, htail⟩ := h2
      have hpair' : (pyIsSpace c && isStarAmp d) = false := by
        revert hpair
        cases pyIsSpace c && isStarAmp d <;> simp
      have hlen2 : (d :: rest2).length ≤ n := by simp at hlen ⊢; omega
      rw [r3_cons_cons]
      by_cases hcd : (c = ',' && !pyIsSpace d) = true
      · rw [if_pos hcd]
        rw [Bool.and_eq_true] at hcd
        have hc : c = ',' := by simpa using hcd.1
        subst hc
        rw [q3_cons, q3_cons, Bool.and_eq_true, Bool.and_eq_true]
        refine ⟨?_, ?_, ih (d :: rest2) (some ' ') hlen2 htail⟩
        · simp [q3step, nextOK, show pyIsSpace ',' = false from by decide,
            show pyIsSpace ' ' = true from by decide]
        · rw [r3_head?]
          simp [q3step, nextOK, show pyIsSpace ' ' = true from by decide]
      · rw [if_neg hcd]
        rw [q3_cons, Bool.and_eq_true]
        refine ⟨?_, ih (d :: rest2) (some c) hlen2 htail⟩
        rw [r3_head?]
        show q3step p c (some d) = true
        by_cases hc : c = ','
        · subst hc
          have hd : pyIsSpace d = true := by
            by_cases hdw : pyIsSpace d = true
            · exact hdw
            · exact absurd (by
                rw [Bool.and_eq_true]
                exact ⟨by simp, by simpa using hdw⟩ :
                  ((',' = ',' : Bool) && !pyIsSpace d) = true) hcd
          simp [q3step, nextOK, hpair', hd]
        · simp [q3step, nextOK, hpair', hc]

/-- Extract the star condition of a `q3step`. -/
theorem q3step_star_ex (p : Option Char) (c d : Char)
    (h : q3step p c (some d) = true) (hws : pyIsSpace c = true)
    (hsd : isStarAmp d = true) : p = some ',' := by
  simp only [q3step, nextOK, Bool.and_eq_true, Bool.or_eq_true] at h
  rcases h.1 with h1 | h1
  · rw [hws, hsd] at h1
    simp at h1
  · simpa using h1

/-- Extract the comma condition of a `q3step`. -/
theorem q3step_comma_ex (p : Option Char) (d : Char)
    (h : q3step p ',' (some d) = true) : pyIsSpace d = true := by
  simp only [q3step, nextOK, Bool.and_eq_true, Bool.or_eq_true] at h
  rcases h.2 with h1 | h1
  · exact absurd h1 (by decide)
  · exact h1

/-- A non-whitespace non-comma character satisfies `q4step` outright. -/
theorem q4step_mk_nonws (p : Option Char) (c : Char) (next : Option Char)
    (hc : pyIsSpace c = false) (hcm : c ≠ ',') : q4step p c next = true := by
  cases next with
  | none => cases p <;> simp [q4step, nextOK, prevOK, hcm, hc]
  | some d => cases p <;> simp [q4step, nextOK, prevOK, hcm, hc]

/-- A comma followed by whitespace, `>`, or the end satisfies `q4step`. -/
theorem q4step_mk_comma (p : Option Char) (next : Option Char)
    (h : ∀ d, next = some d → (pyIsSpace d = true ∨ d = '>')) :
    q4step p ',' next = true := by
  cases next with
  | none =>
    cases p <;> simp [q4step, nextOK, prevOK,
      show pyIsSpace ',' = false from by decide]
  | some d =>
    rcases h d rfl with hd | hd
    · cases p <;> simp [q4step, nextOK, prevOK, hd,
        show pyIsSpace ',' = false from by decide]
    · subst hd
      cases p <;> simp [q4step, nextOK, prevOK,
        show pyIsSpace ',' = false from by decide]

/-- A kept whitespace character satisfies `q4step` when the previous
character is not `<`, any following `*`/`&` is justified by a preceding
comma, and the next character is not `>`. -/
theorem q4step_mk_ws (p : Option Char) (c : Char) (next : Option Char)
    (hws : pyIsSpace c = true)
    (hplt : p ≠ some '<')
    (hstar : ∀ d, next = some d → isStarAmp d = true → p = some ',')
    (hgt : ∀ d, next = some d → d ≠ '>') :
    q4step p c next = true := by
  have hcm : c ≠ ',' := ws_ne_comma c hws
  have h3 : prevOK (fun x => !(x = '<') || !pyIsSpace c) p = true := by
    cases p with
    | none => rfl
    | some x =>
      have hx : x ≠ '<' := fun h => hplt (by rw [h])
      simp [prevOK, hx]
  cases next with
  | none =>
    simp only [q4step, nextOK, Bool.and_eq_true]
    refine ⟨⟨trivial, ?_⟩, h3⟩
    simp [hcm]
  | some d =>
    have hd : d ≠ '>' := hgt d rfl
    have h1 : (!(pyIsSpace c && isStarAmp d) || decide (p = some ',')) = true := by
      by_cases hsd : isStarAmp d = true
      · rw [hstar d rfl hsd]
        simp
      · simp [show isStarAmp d = false from by simpa using hsd]
    have h2 : (!(decide (d = '>')) || !pyIsSpace c) = true := by simp [hd]
    simp only [q4step, nextOK, Bool.and_eq_true]
    exact ⟨⟨⟨h1, h2⟩, by simp [hcm]⟩, h3⟩

/-- When the whitespace run at the head does not end at `>`, stage 4 with a
clear flag keeps the head character. -/
theorem r4go_head_of_not_gt (l : List Char) (h : wsEndsAtGt l = false) :
    (r4go false l).head? = l.head? := by
  cases l with
  | nil => rfl
  | cons d rest =>
    by_cases hws : pyIsSpace d = true
    · rw [r4go_cons, if_pos hws, if_neg (by simp [h])]
      rfl
    · rw [r4go_cons, if_neg (by simp [hws])]
      rfl

/-- When the whitespace run at the head ends at `>`, stage 4 deletes it and
exposes the `>`. -/
theorem r4go_head_of_gt (l : List Char) : ∀ (flag : Bool),
    wsEndsAtGt l = true → (r4go flag l).head? = some '>' := by
  induction l with
  | nil =>
    intro flag h
    simp [wsEndsAtGt] at h
  | cons d rest ih =>
    intro flag h
    by_cases hws : pyIsSpace d = true
    · rw [wsEndsAtGt_cons_ws d rest hws] at h
      rw [r4go_cons, if_pos hws, if_pos (by
        rw [wsEndsAtGt_cons_ws d rest hws, h, Bool.or_true])]
      exact ih flag h
    · have hws' : pyIsSpace d = false := by simpa using hws
      rw [wsEndsAtGt_cons_nonws d rest hws'] at h
      have hd : d = '>' := by simpa using h
      subst hd
      rw [r4go_cons, if_neg (by simp [hws'])]
      rfl

/-- Stage 4 establishes the `q4` invariant on a `q3` input.  The flag is
determined by the last emitted character `q`; the input's previous
character `p` differs from `q` only in the middle of a deleted run. -/
theorem q4_r4go_aux (n : Nat) : ∀ (l : List Char) (p q : Option Char),
    l.length ≤ n → q3 p l = true →
    (p = q ∨ ∃ w, p = some w ∧ pyIsSpace w = true ∧
        (q = some '<' ∨ wsEndsAtGt l = true)) →
    q4 q (r4go (pLt q) l) = true := by
  induction n with
  | zero =>
    intro l p q hlen _ _
    cases l with
    | nil => rfl
    | cons c rest => simp at hlen
  | succ n ih =>
    intro l p q hlen hq3 hR
    cases l with
    | nil => rfl
    | cons c rest =>
    rw [q3_cons, Bool.and_eq_true] at hq3
    obtain ⟨hstep, htail⟩ := hq3
    have hlen2 : rest.length ≤ n := by simpa using Nat.le_of_succ_le_succ hlen
    by_cases hws : pyIsSpace c = true
    · by_cases hdel : (pLt q || wsEndsAtGt (c :: rest)) = true
      · rw [r4go_cons, if_pos hws, if_pos hdel]
        apply ih rest (some c) q hlen2 htail
        right
        refine ⟨c, rfl, hws, ?_⟩
        rw [Bool.or_eq_true] at hdel
        rcases hdel with h1 | h1
        · left
          cases q with
          | none => exact absurd h1 (by decide)
          | some x =>
            have hx : x = '<' := by simpa [pLt] using h1
            rw [hx]
        · right
          rwa [wsEndsAtGt_cons_ws c rest hws] at h1
      · have hd1 : pLt q = false := by
          by_cases hx : pLt q = true
          · exact absurd (by rw [Bool.or_eq_true]; exact Or.inl hx :
              (pLt q || wsEndsAtGt (c :: rest)) = true) hdel
          · simpa using hx
        have hd2 : wsEndsAtGt (c :: rest) = false := by
          by_cases hx : wsEndsAtGt (c :: rest) = true
          · exact absurd (by rw [Bool.or_eq_true]; exact Or.inr hx :
              (pLt q || wsEndsAtGt (c :: rest)) = true) hdel
          · simpa using hx
        rw [r4go_cons, if_pos hws, if_neg (by simp [hd1, hd2])]
        have hpq : p = q := by
          rcases hR with h | ⟨w, hw1, hw2, h3 | h3⟩
          · exact h
          · exact absurd hd1 (by rw [h3]; decide)
          · exact absurd h3 (by simp [hd2])
        subst hpq
        have hwr : wsEndsAtGt rest = false := by
          rwa [wsEndsAtGt_cons_ws c rest hws] at hd2
        rw [q4_cons, Bool.and_eq_true]
        constructor
        · rw [r4go_head_of_not_gt rest hwr]
          apply q4step_mk_ws p c rest.head? hws
          · intro hx
            rw [hx] at hd1
            exact absurd hd1 (by decide)
          · intro d hd hsd
            exact q3step_star_ex p c d (by rw [← hd]; exact hstep) hws hsd
          · intro d hd hdgt
            subst hdgt
            cases rest with
            | nil => simp at hd
            | cons u rest2 =>
              have hu : u = '>' := by simpa using hd
              subst hu
              rw [wsEndsAtGt_cons_nonws '>' rest2 (by decide)] at hwr
              simp at hwr
        · have hrec := ih rest (some c) (some c) hlen2 htail (Or.inl rfl)
          have hlt : pLt (some c) = false := by
            have hne : c ≠ '<' := by
              intro hx
              rw [hx] at hws
              exact absurd hws (by decide)
            simp [pLt, hne]
          rwa [hlt] at hrec
    · have hws' : pyIsSpace c = false := by simpa using hws
      rw [r4go_cons, if_neg (by simp [hws'])]
      rw [q4_cons, Bool.and_eq_true]
      constructor
      · by_cases hc : c = ','
        · subst hc
          apply q4step_mk_comma
          intro d hd
          rw [show (decide (',' = '<')) = false from by decide] at hd
          by_cases hgt : wsEndsAtGt rest = true
          · rw [r4go_head_of_gt rest false hgt] at hd
            right
            simpa using hd.symm
          · have hgt' : wsEndsAtGt rest = false := by simpa using hgt
            rw [r4go_head_of_not_gt rest hgt'] at hd
            left
            exact q3step_comma_ex p d (by rw [← hd]; exact hstep)
        · exact q4step_mk_nonws q c _ hws' hc
      · exact ih rest (some c) (some c) hlen2 htail (Or.inl rfl)

/-- Extract the star condition of a `q4step`. -/
theorem q4step_star_ex (p : Option Char) (c d : Char)
    (h : q4step p c (some d) = true) (hws : pyIsSpace c = true)
    (hsd : isStarAmp d = true) : p = some ',' := by
  simp only [q4step, nextOK, Bool.and_eq_true, Bool.or_eq_true] at h
  rcases h.1.1.1 with h1 | h1
  · rw [hws, hsd] at h1
    simp at h1
  · simpa using h1

/-- Extract the `>` condition of a `q4step` at a whitespace character. -/
theorem q4step_gt_ex (p : Option Char) (c d : Char)
    (h : q4step p c (some d) = true) (hws : pyIsSpace c = true) : d ≠ '>' := by
  simp only [q4step, nextOK, Bool.and_eq_true, Bool.or_eq_true] at h
  rcases h.1.1.2 with h1 | h1
  · intro hx
    rw [hx] at h1
    exact absurd h1 (by decide)
  · rw [hws] at h1
    exact absurd h1 (by decide)

/-- Extract the comma condition of a `q4step`. -/
theorem q4step_comma_ex (p : Option Char) (d : Char)
    (h : q4step p ',' (some d) = true) : pyIsSpace d = true ∨ d = '>' := by
  simp only [q4step, nextOK, Bool.and_eq_true, Bool.or_eq_true] at h
  rcases h.1.2 with h1 | h1 | h1
  · exact absurd h1 (by decide)
  · exact Or.inl h1
  · exact Or.inr (by simpa using h1)

/-- Extract the `<` condition of a `q4step`. -/
theorem q4step_lt_ex (c : Char) (next : Option Char)
    (h : q4step (some '<') c next = true) : pyIsSpace c = false := by
  simp only [q4step, nextOK, prevOK, Bool.and_eq_true, Bool.or_eq_true] at h
  rcases h.2 with h1 | h1
  · exact absurd h1 (by decide)
  · simpa using h1

/-- The stage 5 worker skips a whitespace head. -/
theorem r5run_cons_ws (c : Char) (rest : List Char) (h : pyIsSpace c = true) :
    r5run (c :: rest) = r5run rest := by
  rw [r5run, if_pos h]

/-- The head the stage 5 worker emits is the first non-whitespace
character. -/
theorem r5run_head (l : List Char) :
    (r5run l).head? = (l.dropWhile pyIsSpace).head? := by
  induction l with
  | nil => rfl
  | cons c rest ih =>
    by_cases hws : pyIsSpace c = true
    · rw [r5run_cons_ws c rest hws, List.dropWhile_cons, if_pos (by simp [hws])]
      exact ih
    · have hws' : pyIsSpace c = false := by simpa using hws
      rw [r5run_cons_nonws c rest hws', List.dropWhile_cons, if_neg (by simp [hws'])]
      rfl

/-- In a `q4` string headed by whitespace, the character ending the
whitespace run is not `>` and (unless the run follows a comma) not a
`*`/`&`. -/
theorem q4_skip (n : Nat) : ∀ (l : List Char) (p : Option Char),
    l.length ≤ n → q4 p l = true →
    ∀ h rest2, l = h :: rest2 → pyIsSpace h = true →
    ∀ e, (l.dropWhile pyIsSpace).head? = some e →
      (p ≠ some ',' → isStarAmp e = false) ∧ e ≠ '>' := by
  induction n with
  | zero =>
    intro l p hlen _ h rest2 hl _ e _
    subst hl
    simp at hlen
  | succ n ih =>
    intro l p hlen hq h rest2 hl hws e he
    subst hl
    rw [q4_cons, Bool.and_eq_true] at hq
    obtain ⟨hstep, htail⟩ := hq
    rw [List.dropWhile_cons, if_pos (by simp [hws])] at he
    cases rest2 with
    | nil => simp at he
    | cons d rest3 =>
      by_cases hd : pyIsSpace d = true
      · have hsk := ih (d :: rest3) (some h) (by simp at hlen ⊢; omega)
          htail d rest3 rfl hd e he
        refine ⟨fun _ => hsk.1 ?_, hsk.2⟩
        intro hx
        exact ws_ne_comma h hws (by injection hx)
      · have hd' : pyIsSpace d = false := by simpa using hd
        rw [List.dropWhile_cons, if_neg (by simp [hd'])] at he
        have hde : d = e := by simpa using he
        subst hde
        constructor
        · intro hp
          by_cases hs : isStarAmp d = true
          · exact absurd (q4step_star_ex p h d hstep hws hs) hp
          · simpa using hs
        · exact q4step_gt_ex p h d hstep hws

/-- A non-whitespace character satisfies `q5step` provided a previous comma
forces it to be `>`. -/
theorem q5step_mk_nonws (p : Option Char) (c : Char) (next : Option Char)
    (hc : pyIsSpace c = false) (hcm : p = some ',' → c = '>') :
    q5step p c next = true := by
  cases p with
  | none => cases next <;> simp [q5step, hc]
  | some x =>
    by_cases hx : x = ','
    · subst hx
      have hcg : c = '>' := hcm rfl
      subst hcg
      cases next <;> simp [q5step, hc]
    · cases next <;> simp [q5step, hc, hx]

/-- The single space stage 5 emits for a run satisfies `q5step` when the
previous character is non-whitespace and not `<`, any following `*`/`&` is
justified by a preceding comma, and the next character is not `>`. -/
theorem q5step_mk_ws_out (p : Option Char) (next : Option Char)
    (hpn : p = none ∨ ∃ x, p = some x ∧ pyIsSpace x = false)
    (hplt : p ≠ some '<')
    (hstar : ∀ d, next = some d → isStarAmp d = true → p = some ',')
    (hgt : ∀ d, next = some d → d ≠ '>') :
    q5step p ' ' next = true := by
  rcases hpn with hp | ⟨x, hp, hx⟩ <;> subst hp
  · cases next with
    | none => simp [q5step]
    | some d =>
      have hd : d ≠ '>' := hgt d rfl
      have hsd : isStarAmp d = false := by
        by_cases hs : isStarAmp d = true
        · exact absurd (hstar d rfl hs) (by simp)
        · simpa using hs
      simp [q5step, hsd, hd]
  · have hx' : x ≠ '<' := fun h => hplt (by rw [h])
    cases next with
    | none => simp [q5step, hx, hx']
    | some d =>
      have hd : d ≠ '>' := hgt d rfl
      by_cases hs : isStarAmp d = true
      · have hxc : x = ',' := by simpa using hstar d rfl hs
        subst hxc
        simp [q5step, hx, hd]
      · have hsd : isStarAmp d = false := by simpa using hs
        simp [q5step, hsd, hd, hx, hx']

/-- Stage 5 establishes the full `q5` invariant on a `q4` input: the main
scan (given a non-whitespace previous character, and the comma condition
at the boundary) together with the worker scan entered after an emitted
space. -/
theorem q5_r5_aux (n : Nat) : ∀ (l : List Char) (p : Option Char),
    l.length ≤ n → q4 p l = true →
    ((p = none ∨ ∃ x, p = some x ∧ pyIsSpace x = false) →
     (∀ d, l.head? = some d → p = some ',' → (pyIsSpace d = true ∨ d = '>')) →
     q5 p (r5 l) = true)
    ∧ q5 (some ' ') (r5run l) = true := by
  induction n with
  | zero =>
    intro l p hlen _
    cases l with
    | nil => exact ⟨fun _ _ => rfl, rfl⟩
    | cons c rest => simp at hlen
  | succ n ih =>
    intro l p hlen hq
    cases l with
    | nil => exact ⟨fun _ _ => rfl, rfl⟩
    | cons c rest =>
    rw [q4_cons, Bool.and_eq_true] at hq
    obtain ⟨hstep, htail⟩ := hq
    have hlen2 : rest.length ≤ n := by simpa using Nat.le_of_succ_le_succ hlen
    constructor
    · intro hpn hpc
      by_cases hws : pyIsSpace c = true
      · rw [r5_cons_ws c rest hws, q5, Bool.and_eq_true]
        constructor
        · apply q5step_mk_ws_out p _ hpn
          · intro hx
            rw [hx] at hstep
            exact absurd (q4step_lt_ex c rest.head? hstep) (by simp [hws])
          · intro d hd hsd
            rw [r5run_head] at hd
            cases rest with
            | nil => simp at hd
            | cons u rest2 =>
              by_cases hu : pyIsSpace u = true
              · have hsk := q4_skip rest2.length.succ (u :: rest2) (some c)
                  (by simp) htail u rest2 rfl hu d hd
                exact absurd (hsk.1 (by
                  intro hx
                  exact ws_ne_comma c hws (by injection hx))) (by simp [hsd])
              · have hu' : pyIsSpace u = false := by simpa using hu
                rw [List.dropWhile_cons, if_neg (by simp [hu'])] at hd
                have hud : u = d := by simpa using hd
                subst hud
                exact q4step_star_ex p c u hstep hws hsd
          · intro d hd
            rw [r5run_head] at hd
            cases rest with
            | nil => simp at hd
            | cons u rest2 =>
              by_cases hu : pyIsSpace u = true
              · have hsk := q4_skip rest2.length.succ (u :: rest2) (some c)
                  (by simp) htail u rest2 rfl hu d hd
                exact hsk.2
              · have hu' : pyIsSpace u = false := by simpa using hu
                rw [List.dropWhile_cons, if_neg (by simp [hu'])] at hd
                have hud : u = d := by simpa using hd
                subst hud
                exact q4step_gt_ex p c u hstep hws
        · exact (ih rest (some c) hlen2 htail).2
      · have hws' : pyIsSpace c = false := by simpa using hws
        rw [r5_cons_nonws c rest hws', q5, Bool.and_eq_true]
        constructor
        · apply q5step_mk_nonws p c _ hws'
          intro hx
          rcases hpc c rfl hx with h1 | h1
          · exact absurd h1 (by simp [hws'])
          · exact h1
        · apply (ih rest (some c) hlen2 htail).1
          · exact Or.inr ⟨c, rfl, hws'⟩
          · intro d hd hc
            have hcc : c = ',' := by simpa using hc
            subst hcc
            rw [hd] at hstep
            exact q4step_comma_ex p d hstep
    · by_cases hws : pyIsSpace c = true
      · rw [r5run_cons_ws c rest hws]
        exact (ih rest (some c) hlen2 htail).2
      · have hws' : pyIsSpace c = false := by simpa using hws
        rw [r5run_cons_nonws c rest hws', q5, Bool.and_eq_true]
        constructor
        · exact q5step_mk_nonws (some ' ') c _ hws'
            (fun hx => absurd hx (by decide))
        · apply (ih rest (some c) hlen2 htail).1
          · exact Or.inr ⟨c, rfl, hws'⟩
          · intro d hd hc
            have hcc : c = ',' := by simpa using hc
            subst hcc
            rw [hd] at hstep
            exact q4step_comma_ex p d hstep

/-- Truncating the string after a character only weakens its `q5step`. -/
theorem q5step_to_none (p : Option Char) (c : Char) (next : Option Char)
    (h : q5step p c next = true) : q5step p c none = true := by
  simp only [q5step.eq_def, Bool.and_eq_true] at h ⊢
  exact ⟨⟨h.1.1, by trivial⟩, h.2⟩

/-- Forgetting a non-comma previous character only weakens a `q5step`. -/
theorem q5step_weaken (x : Char) (c : Char) (next : Option Char)
    (h : q5step (some x) c next = true) (hx : x ≠ ',') :
    q5step none c next = true := by
  cases next with
  | none =>
    simp only [q5step.eq_def, Bool.and_eq_true] at h ⊢
    exact ⟨⟨h.1.1, by trivial⟩, by trivial⟩
  | some d =>
    simp only [q5step.eq_def, Bool.and_eq_true] at h ⊢
    refine ⟨⟨h.1.1, ?_, h.1.2.2⟩, by trivial⟩
    have h21 := h.1.2.1
    rw [Bool.or_eq_true] at h21 ⊢
    rcases h21 with h1 | h1
    · exact Or.inl h1
    · exfalso
      have hxc : some x = some ',' := by simpa using h1
      exact hx (by injection hxc)

/-- A `q5` scan started after a non-comma character also passes with no
previous character. -/
theorem q5_weaken (x : Char) (l : List Char)
    (h : q5 (some x) l = true) (hx : x ≠ ',') : q5 none l = true := by
  cases l with
  | nil => rfl
  | cons c rest =>
    obtain ⟨hstep, htail⟩ := q5_tail (some x) c rest h
    rw [q5, Bool.and_eq_true]
    exact ⟨q5step_weaken x c rest.head? hstep hx, htail⟩

/-- Dropping leading whitespace preserves the `q5` invariant. -/
theorem q5_dropWhile (l : List Char) (h : q5 none l = true) :
    q5 none (l.dropWhile pyIsSpace) = true := by
  induction l with
  | nil => rfl
  | cons c rest ih =>
    by_cases hws : pyIsSpace c = true
    · rw [List.dropWhile_cons, if_pos (by simp [hws])]
      obtain ⟨hstep, htail⟩ := q5_tail none c rest h
      exact ih (q5_weaken c rest htail (ws_ne_comma c hws))
    · rw [List.dropWhile_cons, if_neg (by simp [hws])]
      exact h

/-- Truncating a string preserves the `q5` invariant. -/
theorem q5_append_left (l1 l2 : List Char) : ∀ (p : Option Char),
    q5 p (l1 ++ l2) = true → q5 p l1 = true := by
  induction l1 with
  | nil => intro p _; rfl
  | cons c t ih =>
    intro p h
    rw [List.cons_append] at h
    obtain ⟨hstep, htail⟩ := q5_tail p c (t ++ l2) h
    rw [q5, Bool.and_eq_true]
    refine ⟨?_, ih (some c) htail⟩
    cases t with
    | nil => exact q5step_to_none p c _ hstep
    | cons u t2 => exact hstep

/-- The head left by `dropWhile` fails the dropped predicate. -/
theorem dropWhile_head_ws (l : List Char) :
    ∀ a, (l.dropWhile pyIsSpace).head? = some a → pyIsSpace a = false := by
  induction l with
  | nil => intro a ha; simp at ha
  | cons c rest ih =>
    intro a ha
    by_cases hws : pyIsSpace c = true
    · rw [List.dropWhile_cons, if_pos (by simp [hws])] at ha
      exact ih a ha
    · have hws' : pyIsSpace c = false := by simpa using hws
      rw [List.dropWhile_cons, if_neg (by simp [hws'])] at ha
      have hca : c = a := by simpa using ha
      subst hca
      exact hws'

/-- Stripping a `q5` string yields a full normal form. -/
theorem isNF_pyStrip (l : List Char) (h : q5 none l = true) :
    isNF (pyStrip l) = true := by
  rw [pyStrip]
  have h1 : q5 none (l.dropWhile pyIsSpace) = true := q5_dropWhile l h
  obtain ⟨s, hs⟩ : ∃ s,
      s ++ (l.dropWhile pyIsSpace).reverse.dropWhile pyIsSpace
        = (l.dropWhile pyIsSpace).reverse :=
    List.dropWhile_suffix pyIsSpace
  have hsplit : l.dropWhile pyIsSpace
      = ((l.dropWhile pyIsSpace).reverse.dropWhile pyIsSpace).reverse
          ++ s.reverse := by
    have hrev := congrArg List.reverse hs
    rw [List.reverse_append, List.reverse_reverse] at hrev
    exact hrev.symm
  have h2 : q5 none
      (((l.dropWhile pyIsSpace).reverse.dropWhile pyIsSpace).reverse) = true := by
    apply q5_append_left _ s.reverse none
    rw [← hsplit]
    exact h1
  rw [isNF, Bool.and_eq_true, Bool.and_eq_true]
  refine ⟨⟨h2, ?_⟩, ?_⟩
  · cases hres : ((l.dropWhile pyIsSpace).reverse.dropWhile pyIsSpace).reverse with
    | nil => rfl
    | cons a y =>
      rw [headOK]
      have ha : (l.dropWhile pyIsSpace).head? = some a := by
        rw [hsplit, hres]
        rfl
      simp [dropWhile_head_ws l a ha]
  · rw [List.reverse_reverse]
    cases hres : (l.dropWhile pyIsSpace).reverse.dropWhile pyIsSpace with
    | nil => rfl
    | cons a y =>
      rw [headOK]
      have ha := dropWhile_head_ws (l.dropWhile pyIsSpace).reverse a
        (by rw [hres]; rfl)
      simp [ha]

/-- Part A of the idempotence proof: every pipeline output is in normal
form. -/
theorem isNF_normalizeL (l : List Char) : isNF (normalizeL l) = true := by
  have h2 : q2 (r2 (r1 l)) = true := q2_r2 (r1 l)
  have h3 : q3 none (r3 (r2 (r1 l))) = true :=
    q3_r3 (r2 (r1 l)).length (r2 (r1 l)) none le_rfl h2
  have h4 : q4 none (r4 (r3 (r2 (r1 l)))) = true :=
    q4_r4go_aux (r3 (r2 (r1 l))).length (r3 (r2 (r1 l))) none none
      le_rfl h3 (Or.inl rfl)
  have h5 : q5 none (r5 (r4 (r3 (r2 (r1 l))))) = true := by
    refine (q5_r5_aux (r4 (r3 (r2 (r1 l)))).length _ none le_rfl h4).1
      (Or.inl rfl) ?_
    intro d _ hc
    exact absurd hc (by simp)
  rw [normalizeL]
  exact isNF_pyStrip _ h5

/-- **C5**  The Text Normalizer `normalize_string` — the ordered rewrite
pipeline newline→space, delete whitespace before `*`/`&`, one space after
each comma, delete spacing just inside angle brackets, collapse whitespace
runs, then trim — is idempotent: for every input string `s`,
`normalize_string(normalize_string(s)) = normalize_string(s)`. -/
theorem claim5_idempotent (s : String) :
    normalizeString (normalizeString s) = normalizeString s := by
  have h := normalizeL_eq_self_of_isNF (normalizeL s.data) (isNF_normalizeL s.data)
  calc normalizeString (normalizeString s)
      = String.mk (normalizeL (normalizeL s.data)) := rfl
    _ = String.mk (normalizeL s.data) := by rw [h]
    _ = normalizeString s := rfl
